import Mathlib

/-!
# Verification of the JSON tree visualizer core

Shallow embedding of the core logic of `src/src/App.jsx`:

* the value model produced by parsing (`JsonValue`),
* the graph transformer `traverseToNodes` / `buildGraph`,
* the path normalizer `parsePathToNormalized` and search `handleSearch`,
* the heuristic repair `trySanitizeText` and `parseWithRecovery`.

JavaScript strings are modelled as Lean `String`s, arrays as lists, and the
mutable node/edge arrays plus the `idCounter` as an explicit state record
threaded through the traversal.
-/

set_option maxRecDepth 4000

/-- Decimal digit character for a digit value `d < 10` (other inputs unused). -/
def digitChar : Nat → Char
  | 0 => '0' | 1 => '1' | 2 => '2' | 3 => '3' | 4 => '4'
  | 5 => '5' | 6 => '6' | 7 => '7' | 8 => '8' | 9 => '9'
  | _ => '*'

/-- Decimal rendering of a natural number (accumulator form), as JavaScript
prints integer indices and counters in template literals.  The fuel is any
strict upper bound on `n`; `n + 1` always suffices. -/
def natDecAux : Nat → Nat → List Char → List Char
  | 0, _, acc => acc
  | fuel + 1, n, acc =>
      if n < 10 then digitChar n :: acc
      else natDecAux fuel (n / 10) (digitChar (n % 10) :: acc)

/-- Decimal rendering of a natural number as a string. -/
def natDec (n : Nat) : String := ⟨natDecAux (n + 1) n []⟩

/-- Decimal rendering of an integer, matching JavaScript `String(n)` for
integer-valued numbers. -/
def intDec : Int → String
  | .ofNat n => natDec n
  | .negSucc n => ⟨'-' :: natDecAux (n + 2) (n + 1) []⟩

/-- JSON primitive values.  Numbers keep their source numeral text: every
numeral considered in this development is a canonical integer, for which
JavaScript's number-to-string conversion returns the numeral unchanged. -/
inductive JPrim where
  | str (s : String)
  | num (raw : String)
  | bool (b : Bool)
  | null
  deriving DecidableEq

/-- The parsed JSON value model: objects are insertion-ordered key/value
lists, arrays are lists, everything else is a primitive. -/
inductive JsonValue where
  | prim (p : JPrim)
  | arr (elems : List JsonValue)
  | obj (fields : List (String × JsonValue))

mutual

/-- Decidable structural equality on JSON values. -/
def JsonValue.deq : (a b : JsonValue) → Decidable (a = b)
  | .prim a, .prim b =>
      match decEq a b with
      | isTrue h => isTrue (by rw [h])
      | isFalse h => isFalse (fun c => h (JsonValue.prim.inj c))
  | .prim _, .arr _ => isFalse nofun
  | .prim _, .obj _ => isFalse nofun
  | .arr _, .prim _ => isFalse nofun
  | .arr a, .arr b =>
      match JsonValue.deqElems a b with
      | isTrue h => isTrue (by rw [h])
      | isFalse h => isFalse (fun c => h (JsonValue.arr.inj c))
  | .arr _, .obj _ => isFalse nofun
  | .obj _, .prim _ => isFalse nofun
  | .obj _, .arr _ => isFalse nofun
  | .obj a, .obj b =>
      match JsonValue.deqFields a b with
      | isTrue h => isTrue (by rw [h])
      | isFalse h => isFalse (fun c => h (JsonValue.obj.inj c))

/-- Decidable equality on element lists. -/
def JsonValue.deqElems : (a b : List JsonValue) → Decidable (a = b)
  | [], [] => isTrue rfl
  | [], _ :: _ => isFalse nofun
  | _ :: _, [] => isFalse nofun
  | x :: xs, y :: ys =>
      match JsonValue.deq x y, JsonValue.deqElems xs ys with
      | isTrue h1, isTrue h2 => isTrue (by rw [h1, h2])
      | isFalse h1, _ => isFalse (fun c => h1 (List.cons.inj c).1)
      | _, isFalse h2 => isFalse (fun c => h2 (List.cons.inj c).2)

/-- Decidable equality on field lists. -/
def JsonValue.deqFields :
    (a b : List (String × JsonValue)) → Decidable (a = b)
  | [], [] => isTrue rfl
  | [], _ :: _ => isFalse nofun
  | _ :: _, [] => isFalse nofun
  | (k, x) :: xs, (l, y) :: ys =>
      match decEq k l, JsonValue.deq x y, JsonValue.deqFields xs ys with
      | isTrue h0, isTrue h1, isTrue h2 => isTrue (by rw [h0, h1, h2])
      | isFalse h0, _, _ =>
          isFalse (fun c => h0 (congrArg Prod.fst (List.cons.inj c).1))
      | _, isFalse h1, _ =>
          isFalse (fun c => h1 (congrArg Prod.snd (List.cons.inj c).1))
      | _, _, isFalse h2 => isFalse (fun c => h2 (List.cons.inj c).2)

end

instance : DecidableEq JsonValue := JsonValue.deq

deriving instance DecidableEq for Except

/-- Number of values in a JSON tree (the node count the spec's claims refer
to: one per object, array and primitive, including the root). -/
def sizeV : JsonValue → Nat
  | .prim _ => 1
  | .arr es => 1 + sizeL es
  | .obj fs => 1 + sizeF fs
where
  /-- Total size of a list of array elements. -/
  sizeL : List JsonValue → Nat
    | [] => 0
    | v :: r => sizeV v + sizeL r
  /-- Total size of a list of object fields. -/
  sizeF : List (String × JsonValue) → Nat
    | [] => 0
    | (_, v) :: r => sizeV v + sizeF r

/-- Number of direct children of a value (object fields / array elements). -/
def childCount : JsonValue → Nat
  | .prim _ => 0
  | .arr es => es.length
  | .obj fs => fs.length

/-- Runtime type tag computed by the source:
`Array.isArray → 'array'`, non-null `object` → `'object'`, else `'primitive'`. -/
def typeOf : JsonValue → String
  | .arr _ => "array"
  | .obj _ => "object"
  | .prim _ => "primitive"

/-- JavaScript `String(json)` for the primitive values that reach the label
builder (objects and arrays never do). -/
def jsString : JsonValue → String
  | .prim (.str s) => s
  | .prim (.num raw) => raw
  | .prim (.bool true) => "true"
  | .prim (.bool false) => "false"
  | .prim .null => "null"
  | .arr _ => ""
  | .obj _ => ""

/-- `path.split('.').slice(-1)[0]`: the chunk of `path` after its last `'.'`
(the whole path when it contains no dot). -/
def lastDotSegAux : List Char → List Char → List Char
  | [], acc => acc.reverse
  | '.' :: r, _ => lastDotSegAux r []
  | c :: r, acc => lastDotSegAux r (c :: acc)

/-- The chunk of a path after its last dot, as used for node labels. -/
def lastDotSeg (s : String) : String := ⟨lastDotSegAux s.data []⟩

/-- Label of a node as computed in `traverseToNodes`: for objects/arrays the
last dot-chunk of the path, for primitives that chunk followed by
`": " ++ String(json)`. -/
def mkLabel (j : JsonValue) (path : String) : String :=
  if typeOf j = "primitive" then lastDotSeg path ++ ": " ++ jsString j
  else lastDotSeg path

/-- A produced graph node (`style` is modelled by its only varying input,
the highlight flag). -/
structure GNode where
  id : String
  label : String
  path : String
  value : JsonValue
  type : String
  x : Int
  y : Int
  highlighted : Bool
  deriving DecidableEq

/-- A produced graph edge. -/
structure GEdge where
  id : String
  source : String
  target : String
  deriving DecidableEq

/-- The mutable state of one generation: the node and edge arrays and the
`idCounter`. -/
structure TState where
  nodes : List GNode
  edges : List GEdge
  counter : Nat
  deriving DecidableEq

mutual

/-- Shallow embedding of `traverseToNodes(json, path, depth, x, y, nodes,
edges, parentId)` from `src/src/App.jsx`.  Array pushes become appends, the
shared `idCounter` is the `counter` field of the threaded state. -/
def traverseToNodes (j : JsonValue) (path : String) (depth : Nat)
    (x y : Int) (parentId : Option String) (st : TState) : TState :=
  let nodeId : String := "n_" ++ natDec st.counter
  let st1 : TState := { st with counter := st.counter + 1 }
  let isRoot := path = "$"
  let st2 : TState :=
    if isRoot then st1
    else
      { st1 with
        nodes := st1.nodes ++
          [{ id := nodeId, label := mkLabel j path, path := path, value := j,
             type := typeOf j, x := x + (depth : Int) * 220, y := y,
             highlighted := false }],
        edges := st1.edges ++
          (match parentId with
           | some pid => [{ id := "e_" ++ pid ++ "_" ++ nodeId,
                            source := pid, target := nodeId }]
           | none => []) }
  match j with
  | .prim _ => st2
  | .obj fs =>
      traverseObjFields fs path (if isRoot then depth else depth + 1) x y
        (if isRoot then parentId else some nodeId) st2
  | .arr es =>
      traverseArrElems es 0 path (if isRoot then depth else depth + 1) x y
        (if isRoot then parentId else some nodeId) st2

/-- The `for (const key of Object.keys(json))` loop: `childY` starts at the
parent's `y` and grows by 120 per field. -/
def traverseObjFields (fs : List (String × JsonValue)) (path : String)
    (cdepth : Nat) (x childY : Int) (cpar : Option String) (st : TState) :
    TState :=
  match fs with
  | [] => st
  | (k, v) :: rest =>
      let st' := traverseToNodes v
        ((if path = "$" then "$" else path) ++ "." ++ k) cdepth x childY cpar st
      traverseObjFields rest path cdepth x (childY + 120) cpar st'

/-- The `for (let i = 0; i < json.length; i++)` loop. -/
def traverseArrElems (es : List JsonValue) (i : Nat) (path : String)
    (cdepth : Nat) (x childY : Int) (cpar : Option String) (st : TState) :
    TState :=
  match es with
  | [] => st
  | v :: rest =>
      let st' := traverseToNodes v (path ++ "[" ++ natDec i ++ "]")
        cdepth x childY cpar st
      traverseArrElems rest (i + 1) path cdepth x (childY + 120) cpar st'

end

/-- `handleGenerate` resets `idCounter` to 1 and calls
`traverseToNodes(parsed)` with the default arguments. -/
def buildGraph (j : JsonValue) : TState :=
  traverseToNodes j "$" 0 0 0 none { nodes := [], edges := [], counter := 1 }

mutual

/-- Pure characterization of `traverseToNodes`: the nodes and edges a call
appends, as a function of the incoming counter value `c`. -/
def emitV (j : JsonValue) (path : String) (depth : Nat) (x y : Int)
    (parentId : Option String) (c : Nat) : List GNode × List GEdge :=
  let nodeId : String := "n_" ++ natDec c
  let isRoot := path = "$"
  let selfN : List GNode :=
    if isRoot then []
    else [{ id := nodeId, label := mkLabel j path, path := path, value := j,
            type := typeOf j, x := x + (depth : Int) * 220, y := y,
            highlighted := false }]
  let selfE : List GEdge :=
    if isRoot then []
    else
      match parentId with
      | some pid => [{ id := "e_" ++ pid ++ "_" ++ nodeId,
                       source := pid, target := nodeId }]
      | none => []
  let rest : List GNode × List GEdge :=
    match j with
    | .prim _ => ([], [])
    | .obj fs =>
        emitF fs path (if isRoot then depth else depth + 1) x y
          (if isRoot then parentId else some nodeId) (c + 1)
    | .arr es =>
        emitE es 0 path (if isRoot then depth else depth + 1) x y
          (if isRoot then parentId else some nodeId) (c + 1)
  (selfN ++ rest.1, selfE ++ rest.2)

/-- Pure characterization of `traverseObjFields`. -/
def emitF (fs : List (String × JsonValue)) (path : String) (cdepth : Nat)
    (x childY : Int) (cpar : Option String) (c : Nat) :
    List GNode × List GEdge :=
  match fs with
  | [] => ([], [])
  | (k, v) :: rest =>
      let a := emitV v ((if path = "$" then "$" else path) ++ "." ++ k)
        cdepth x childY cpar c
      let b := emitF rest path cdepth x (childY + 120) cpar (c + sizeV v)
      (a.1 ++ b.1, a.2 ++ b.2)

/-- Pure characterization of `traverseArrElems`. -/
def emitE (es : List JsonValue) (i : Nat) (path : String) (cdepth : Nat)
    (x childY : Int) (cpar : Option String) (c : Nat) :
    List GNode × List GEdge :=
  match es with
  | [] => ([], [])
  | v :: rest =>
      let a := emitV v (path ++ "[" ++ natDec i ++ "]") cdepth x childY cpar c
      let b := emitE rest (i + 1) path cdepth x (childY + 120) cpar (c + sizeV v)
      (a.1 ++ b.1, a.2 ++ b.2)

end

/-! ## Path normalization and search -/

/-- JavaScript `\s` (and `String.prototype.trim`) whitespace. -/
def jsWsChar (c : Char) : Bool :=
  c = ' ' || c = '\t' || c = '\n' || c = '\r' || c = '\x0b' || c = '\x0c' ||
  c = '\u00a0' || c = '\u1680' ||
  (0x2000 ≤ c.toNat && c.toNat ≤ 0x200a) ||
  c = '\u2028' || c = '\u2029' || c = '\u202f' || c = '\u205f' ||
  c = '\u3000' || c = '\ufeff'

/-- JavaScript line terminators (the characters `.` does not match without
the `s` flag). -/
def isLineTerm (c : Char) : Bool :=
  c = '\n' || c = '\r' || c = '\u2028' || c = '\u2029'

/-- `trim()` on a character list. -/
def jsTrimL (s : List Char) : List Char :=
  ((s.dropWhile jsWsChar).reverse.dropWhile jsWsChar).reverse

/-- JavaScript `String.prototype.trim`. -/
def jsTrim (s : String) : String := ⟨jsTrimL s.data⟩

/-- JavaScript `a.endsWith(b)`. -/
def jsEndsWith (s suffx : String) : Bool := List.isSuffixOf suffx.data s.data

/-- Shallow embedding of `parsePathToNormalized`: the empty string is falsy
(`if (!path) return null`), then trim, then strip at most one leading `$`,
then at most one leading `.`. -/
def parsePathToNormalized (path : String) : Option String :=
  if path = "" then none
  else
    let p := (jsTrim path).data
    let p1 : List Char := match p with | '$' :: r => r | _ => p
    let p2 : List Char := match p1 with | '.' :: r => r | _ => p1
    some ⟨p2⟩

/-- Modelled from claim C7's wording: strip at most one leading `$`. -/
def stripLeadDollar (s : String) : String :=
  match s.data with
  | '$' :: r => ⟨r⟩
  | _ => s

/-- Modelled from claim C7's wording: strip at most one leading `.`. -/
def stripLeadDot (s : String) : String :=
  match s.data with
  | '.' :: r => ⟨r⟩
  | _ => s

/-- The predicate `handleSearch` tests each node against:
`n.data.path.endsWith(normalized) || n.data.path === '$.' + normalized`. -/
def matchesQuery (normalized : String) (n : GNode) : Bool :=
  jsEndsWith n.path normalized || n.path = "$." ++ normalized

/-- Observable outcome of one `handleSearch` invocation: the (possibly
restyled) node list, the search message if one was set, and the matched
node if any. -/
structure SearchResult where
  nodes : List GNode
  message : Option String
  matched : Option GNode
  deriving DecidableEq

/-- Shallow embedding of `handleSearch`: falsy query or falsy normalized
query returns without searching; otherwise `nodes.find(...)`; on a match all
styles are recomputed with only the match highlighted; on no match the
node list is untouched. -/
def handleSearch (nodes : List GNode) (query : String) : SearchResult :=
  if query = "" then ⟨nodes, none, none⟩
  else
    match parsePathToNormalized query with
    | none => ⟨nodes, none, none⟩
    | some normalized =>
        if normalized = "" then ⟨nodes, none, none⟩
        else
          match nodes.find? (matchesQuery normalized) with
          | some m =>
              ⟨nodes.map (fun n => { n with highlighted := n.id = m.id }),
               some "Match found", some m⟩
          | none => ⟨nodes, some "No match found", none⟩

/-! ## The heuristic repair `trySanitizeText`

The source uses three regular expressions.  They are embedded as explicit
scanners; each scanner follows the backtracking behaviour of its regex.  On
this pattern the only proper backtracking point is the lazy prefix
`[^\[\]]*?` of the span regex (it may contain quotes, so on failure the
attempt resumes at the next quote); all other pieces are deterministic
because each repetition's character class is disjoint from the character
that must follow it. -/

/-- Inside the pre-check regex `\[\s*"(?:[^"\\]|\\.)*"\s*:` : consume string
content after the opening quote and the closing quote, returning the rest.
`\\.` cannot match a backslash followed by a line terminator. -/
def strContentEnd : List Char → Option (List Char)
  | [] => none
  | '"' :: r => some r
  | '\\' :: c :: r => if isLineTerm c then none else strContentEnd r
  | '\\' :: [] => none
  | _ :: r => strContentEnd r

/-- Try the pre-check pattern anchored at the head of `s`. -/
def precheckAt (s : List Char) : Bool :=
  match s with
  | '[' :: r =>
      match (r.dropWhile jsWsChar) with
      | '"' :: r2 =>
          match strContentEnd r2 with
          | some r3 =>
              match r3.dropWhile jsWsChar with
              | ':' :: _ => true
              | _ => false
          | none => false
      | _ => false
  | _ => false

/-- `/\[\s*"(?:[^"\\]|\\.)*"\s*:/m.test(text)`: does the pre-check pattern
match anywhere in the text? -/
def precheckMatches : List Char → Bool
  | [] => false
  | c :: r => precheckAt (c :: r) || precheckMatches r

/-- A span character that terminates the greedy value chunk `[^,\[\]]+`. -/
def isDelim (c : Char) : Bool := c = ',' || c = '[' || c = ']'

/-- Skip `\s*`. -/
def skipWs (s : List Char) : List Char := s.dropWhile jsWsChar

/-- After the opening quote of `"[^"\[\]]*?"`: scan to the closing quote,
failing if a bracket (or the end) comes first. -/
def scanKeyContent : List Char → Option (List Char)
  | [] => none
  | '"' :: r => some r
  | '[' :: _ => none
  | ']' :: _ => none
  | _ :: r => scanKeyContent r

/-- One `"key"\s*:\s*[^,\[\]]+` unit of the span regex, anchored at a `"`.
The interplay of the greedy `\s*` and the greedy value class (which itself
contains whitespace) amounts to: at least one non-delimiter character must
follow the colon. -/
def matchPairAt (s : List Char) : Option (List Char) :=
  match s with
  | '"' :: r =>
      match scanKeyContent r with
      | some r2 =>
          match skipWs r2 with
          | ':' :: r3 =>
              let v := r3.takeWhile (fun c => !isDelim c)
              if v.isEmpty then none else some (r3.drop v.length)
          | _ => none
      | none => none
  | _ => none

/-- The `(?:\s*,\s*"[^"\[\]]*?"\s*:\s*[^,\[\]]+)*` loop: keep consuming
`, "key": value` units; a failing attempt is rolled back wholly. -/
def matchMorePairs : Nat → List Char → List Char
  | 0, s => s
  | fuel + 1, s =>
      match skipWs s with
      | ',' :: r =>
          match matchPairAt (skipWs r) with
          | some s2 => matchMorePairs fuel s2
          | none => s
      | _ => s

/-- Match the span regex after its opening `[`: lazily extend the prefix
`[^\[\]]*?` (one character at a time, never across a bracket) and at each
quote try the key/value run followed by `]`.  Returns the suffix after the
closing `]` of the match. -/
def matchSpanTail : Nat → List Char → Option (List Char)
  | 0, _ => none
  | _ + 1, [] => none
  | fuel + 1, c :: r =>
      if c = '[' || c = ']' then none
      else if c = '"' then
        match matchPairAt (c :: r) with
        | some s2 =>
            match matchMorePairs (s2.length + 1) s2 with
            | ']' :: rest => some rest
            | _ => matchSpanTail fuel r
        | none => matchSpanTail fuel r
      else matchSpanTail fuel r

/-- Number of quote characters in a list. -/
def countQuotes (s : List Char) : Nat := s.countP (fun c => c = '"')

/-- `inner.split(/,(?=(?:[^"]*"[^"]*")*[^"]*$)/)`: split at each comma whose
suffix contains an even number of quotes (that is what the lookahead
checks). -/
def splitTopComma (s : List Char) : List (List Char) :=
  go s []
where
  /-- Accumulating splitter. -/
  go : List Char → List Char → List (List Char)
    | [], acc => [acc.reverse]
    | ',' :: r, acc =>
        if countQuotes r % 2 = 0 then acc.reverse :: go r []
        else go r (',' :: acc)
    | c :: r, acc => go r (c :: acc)

/-- `keyValRegex = /^\s*"([^"]+)"\s*:\s*(.+)\s*$/s` applied to a part:
returns the key and the trimmed captured value (the code always trims
`m[2]`, so the trimmed value is returned directly; the trailing greedy
`(.+)\s*$` makes the raw capture the whole remainder after the colon, and
the leading `\s*` before it never changes the trimmed result). -/
def kvParse (p : List Char) : Option (List Char × List Char) :=
  match skipWs p with
  | '"' :: r =>
      let key := r.takeWhile (fun c => c ≠ '"')
      if key.isEmpty then none
      else
        match r.drop key.length with
        | '"' :: r2 =>
            match skipWs r2 with
            | ':' :: r3 => if r3.isEmpty then none else some (key, jsTrimL r3)
            | _ => none
        | _ => none
  | _ => none

/-- `/^".*"$/.test(val)` (no `s` flag): first and last characters are quotes
and nothing in between is a line terminator. -/
def isQuotedVal (v : List Char) : Bool :=
  match v with
  | '"' :: (_ :: _) =>
      v.getLast? = some '"' && ((v.drop 1).dropLast.all (fun c => !isLineTerm c))
  | _ => false

/-- One decimal digit. -/
def isDigitCh (c : Char) : Bool := '0' ≤ c && c ≤ '9'

/-- `/^(?:-?\d+(\.\d+)?|true|false|null)$/i.test(val)`. -/
def isLiteralVal (v : List Char) : Bool :=
  isNumLit v || lowered = "true".data || lowered = "false".data ||
    lowered = "null".data
where
  /-- Case-folded copy of the value. -/
  lowered : List Char := v.map Char.toLower
  /-- The numeric alternative `-?\d+(\.\d+)?`. -/
  isNumLit (s : List Char) : Bool :=
    let t := match s with | '-' :: r => r | r => r
    let ds := t.takeWhile isDigitCh
    if ds.isEmpty then false
    else
      match t.drop ds.length with
      | [] => true
      | '.' :: f => !f.isEmpty && f.all isDigitCh
      | _ => false

/-- `val.replace(/^"(.*)"$/, '$1')`: strip one pair of surrounding quotes
when that regex matches (same condition as `isQuotedVal`). -/
def stripOuterQuotes (v : List Char) : List Char :=
  if isQuotedVal v then (v.drop 1).dropLast else v

/-- Hexadecimal digit for `JSON.stringify`'s control-character escapes. -/
def hexDigit (n : Nat) : Char :=
  if n < 10 then digitChar n
  else if n = 10 then 'a' else if n = 11 then 'b' else if n = 12 then 'c'
  else if n = 13 then 'd' else if n = 14 then 'e' else 'f'

/-- `JSON.stringify` of a string value. -/
def jsonStringify (s : List Char) : List Char :=
  '"' :: (s.flatMap esc) ++ ['"']
where
  /-- Escape one character. -/
  esc (c : Char) : List Char :=
    if c = '"' then ['\\', '"']
    else if c = '\\' then ['\\', '\\']
    else if c = '\n' then ['\\', 'n']
    else if c = '\r' then ['\\', 'r']
    else if c = '\t' then ['\\', 't']
    else if c = '\x08' then ['\\', 'b']
    else if c = '\x0c' then ['\\', 'f']
    else if c.toNat < 0x20 then
      ['\\', 'u', '0', '0', hexDigit (c.toNat / 16), hexDigit (c.toNat % 16)]
    else [c]

/-- Rewrite one `key: value` part into `{JSON.stringify(key)}:{val}` with the
value-side repair of the source. -/
def kvRewrite (kv : List Char × List Char) : List Char :=
  let val := kv.2
  let val2 :=
    if !isQuotedVal val && !isLiteralVal val &&
        val.head? ≠ some '{' && val.head? ≠ some '[' then
      jsonStringify (stripOuterQuotes val)
    else val
  '{' :: jsonStringify kv.1 ++ ':' :: val2 ++ ['}']

/-- `objs.join(',')` wrapped in brackets. -/
def joinComma : List (List Char) → List Char
  | [] => []
  | [p] => p
  | p :: rest => p ++ ',' :: joinComma rest

/-- The replacement callback of the span regex: split into parts, trim,
drop empties, and either rewrite every part (when all parts look like
`"key": value`) or return the original span unchanged. -/
def replaceSpan (inner : List Char) : List Char :=
  let parts := ((splitTopComma inner).map jsTrimL).filter
    (fun p => !p.isEmpty)
  if parts.all (fun p => (kvParse p).isSome) then
    '[' :: joinComma ((parts.filterMap kvParse).map kvRewrite) ++ [']']
  else
    '[' :: inner ++ [']']

/-- The global (`g` flag) scan of `text.replace(...)`: at each position try
the span regex; on a match substitute the callback's result and resume after
the span, otherwise copy one character. -/
def sanitizeScan : Nat → List Char → List Char
  | 0, s => s
  | _ + 1, [] => []
  | fuel + 1, c :: r =>
      if c = '[' then
        match matchSpanTail (r.length + 1) r with
        | some rest =>
            let innerLen := r.length - rest.length - 1
            replaceSpan (r.take innerLen) ++ sanitizeScan fuel rest
        | none => c :: sanitizeScan fuel r
      else c :: sanitizeScan fuel r

/-- Shallow embedding of `trySanitizeText`: if the pre-check regex does not
match, return the text unchanged; otherwise run the global replace. -/
def trySanitizeText (text : String) : String :=
  if precheckMatches text.data then
    ⟨sanitizeScan (text.data.length + 1) text.data⟩
  else text

/-! ## The strict parser

Modelled from the spec: the "strict JSON parse" step of the Recovery Parser
is the platform `JSON.parse`, which is not part of this repository's source.
The grammar below is standard strict JSON with two documented restrictions
that affect no input considered here: numbers keep their numeral text
instead of being converted to IEEE doubles (all numerals that occur are
canonical integers), and unpaired `\uXXXX` surrogate escapes are rejected
(Lean characters are Unicode scalar values).  Object fields use last-wins
duplicate handling at the first occurrence's position, and enumeration
(`Object.keys`) places array-index-like keys first in ascending order, as
JavaScript does. -/

/-- JSON (not JavaScript) whitespace. -/
def jsonWsChar (c : Char) : Bool :=
  c = ' ' || c = '\t' || c = '\n' || c = '\r'

/-- Skip JSON whitespace. -/
def skipJWs (s : List Char) : List Char := s.dropWhile jsonWsChar

/-- Value of a list of decimal digits. -/
def decDigitsVal (s : List Char) : Nat :=
  s.foldl (fun a c => a * 10 + (c.toNat - 48)) 0

/-- Parse the four hex digits of a `\uXXXX` escape. -/
def hex4 : List Char → Option (Nat × List Char)
  | a :: b :: c :: d :: r => do
      let hv (x : Char) : Option Nat :=
        if '0' ≤ x && x ≤ '9' then some (x.toNat - 48)
        else if 'a' ≤ x && x ≤ 'f' then some (x.toNat - 87)
        else if 'A' ≤ x && x ≤ 'F' then some (x.toNat - 55)
        else none
      let va ← hv a
      let vb ← hv b
      let vc ← hv c
      let vd ← hv d
      some (((va * 16 + vb) * 16 + vc) * 16 + vd, r)
  | _ => none

/-- Parse the body of a JSON string (after the opening quote); the fuel is
an upper bound on the remaining input length. -/
def parseStringBody (fuel : Nat) (s acc : List Char) :
    Except String (String × List Char) :=
  match fuel, s, acc with
  | 0, _, _ => .error "Unterminated string in JSON"
  | _ + 1, [], _ => .error "Unterminated string in JSON"
  | _ + 1, '"' :: r, acc => .ok (⟨acc.reverse⟩, r)
  | fuel + 1, '\\' :: e :: r, acc =>
      match e with
      | '"' => parseStringBody fuel r ('"' :: acc)
      | '\\' => parseStringBody fuel r ('\\' :: acc)
      | '/' => parseStringBody fuel r ('/' :: acc)
      | 'b' => parseStringBody fuel r ('\x08' :: acc)
      | 'f' => parseStringBody fuel r ('\x0c' :: acc)
      | 'n' => parseStringBody fuel r ('\n' :: acc)
      | 'r' => parseStringBody fuel r ('\r' :: acc)
      | 't' => parseStringBody fuel r ('\t' :: acc)
      | 'u' =>
          match hex4 r with
          | none => .error "Bad Unicode escape in JSON"
          | some (hi, r2) =>
              if 0xd800 ≤ hi && hi ≤ 0xdbff then
                match r2 with
                | '\\' :: 'u' :: r3 =>
                    match hex4 r3 with
                    | some (lo, r4) =>
                        if 0xdc00 ≤ lo && lo ≤ 0xdfff then
                          parseStringBody fuel r4
                            (Char.ofNat
                              (0x10000 + (hi - 0xd800) * 0x400 + (lo - 0xdc00))
                              :: acc)
                        else .error "Lone surrogate in JSON string"
                    | none => .error "Bad Unicode escape in JSON"
                | _ => .error "Lone surrogate in JSON string"
              else if 0xdc00 ≤ hi && hi ≤ 0xdfff then
                .error "Lone surrogate in JSON string"
              else parseStringBody fuel r2 (Char.ofNat hi :: acc)
      | _ => .error "Bad escape in JSON"
  | _ + 1, '\\' :: [], _ => .error "Unterminated string in JSON"
  | fuel + 1, c :: r, acc =>
      if c.toNat < 0x20 then .error "Bad control character in JSON string"
      else parseStringBody fuel r (c :: acc)

/-- Parse a JSON numeral `-?(0|[1-9][0-9]*)(\.[0-9]+)?([eE][+-]?[0-9]+)?`,
returning the raw numeral text. -/
def parseNumeral (s : List Char) : Except String (String × List Char) :=
  let (sign, t) := match s with
    | '-' :: r => (['-'], r)
    | r => (([] : List Char), r)
  match t with
  | '0' :: r => afterInt (sign ++ ['0']) r
  | c :: _ =>
      if isDigitCh c then
        let ds := t.takeWhile isDigitCh
        afterInt (sign ++ ds) (t.drop ds.length)
      else .error "Unexpected token in JSON"
  | [] => .error "Unexpected end of JSON input"
where
  /-- Optional fraction then optional exponent. -/
  afterInt (acc : List Char) (t : List Char) : Except String (String × List Char) :=
    match t with
    | '.' :: r =>
        let fs := r.takeWhile isDigitCh
        if fs.isEmpty then .error "Unexpected token in JSON"
        else afterExp (acc ++ '.' :: fs) (r.drop fs.length)
    | _ => afterExp acc t
  /-- Optional exponent. -/
  afterExp (acc : List Char) (t : List Char) : Except String (String × List Char) :=
    match t with
    | 'e' :: r => expBody acc 'e' r
    | 'E' :: r => expBody acc 'E' r
    | _ => .ok (⟨acc⟩, t)
  /-- Exponent digits with optional sign. -/
  expBody (acc : List Char) (e : Char) (r : List Char) :
      Except String (String × List Char) :=
    let (sg, r2) := match r with
      | '+' :: r2 => (['+'], r2)
      | '-' :: r2 => (['-'], r2)
      | r2 => (([] : List Char), r2)
    let ds := r2.takeWhile isDigitCh
    if ds.isEmpty then .error "Unexpected token in JSON"
    else .ok (⟨acc ++ e :: sg ++ ds⟩, r2.drop ds.length)

/-- Is a key an array-index-like key (canonical decimal, below `2^32 - 1`)? -/
def isIndexKey (s : String) : Bool :=
  let d := s.data
  !d.isEmpty && d.all isDigitCh &&
    (d = ['0'] || d.head? ≠ some '0') && decDigitsVal d < 4294967295

/-- Insert a parsed field with JavaScript semantics: an existing key keeps
its position and takes the new value. -/
def insertField : List (String × JsonValue) → String → JsonValue →
    List (String × JsonValue)
  | [], k, v => [(k, v)]
  | (k0, v0) :: rest, k, v =>
      if k0 = k then (k0, v) :: rest
      else (k0, v0) :: insertField rest k v

/-- Stable insertion (ascending numeric key) used for the index-like keys. -/
def insertByNum (p : String × JsonValue) :
    List (String × JsonValue) → List (String × JsonValue)
  | [] => [p]
  | q :: rest =>
      if decDigitsVal p.1.data < decDigitsVal q.1.data then p :: q :: rest
      else q :: insertByNum p rest

/-- JavaScript enumeration order: array-index-like keys first in ascending
numeric order, then the remaining keys in insertion order. -/
def canonicalFields (fs : List (String × JsonValue)) :
    List (String × JsonValue) :=
  let idx := fs.filter (fun p => isIndexKey p.1)
  let rest := fs.filter (fun p => !isIndexKey p.1)
  (idx.foldl (fun acc p => insertByNum p acc) []) ++ rest

mutual

/-- Parse one JSON value (leading whitespace allowed). -/
def parseValue (fuel : Nat) (s : List Char) :
    Except String (JsonValue × List Char) :=
  match fuel with
  | 0 => .error "JSON too deeply nested"
  | fuel + 1 =>
      match skipJWs s with
      | [] => .error "Unexpected end of JSON input"
      | '{' :: r =>
          (match skipJWs r with
           | '}' :: r2 => .ok (.obj [], r2)
           | _ => parseMembers fuel (skipJWs r) [])
      | '[' :: r =>
          (match skipJWs r with
           | ']' :: r2 => .ok (.arr [], r2)
           | _ => parseElements fuel (skipJWs r) [])
      | '"' :: r =>
          (match parseStringBody (r.length + 1) r [] with
           | .ok (str, r2) => .ok (.prim (.str str), r2)
           | .error e => .error e)
      | 't' :: r =>
          if List.isPrefixOf "rue".data r then
            .ok (.prim (.bool true), r.drop 3)
          else .error "Unexpected token in JSON"
      | 'f' :: r =>
          if List.isPrefixOf "alse".data r then
            .ok (.prim (.bool false), r.drop 4)
          else .error "Unexpected token in JSON"
      | 'n' :: r =>
          if List.isPrefixOf "ull".data r then
            .ok (.prim .null, r.drop 3)
          else .error "Unexpected token in JSON"
      | t =>
          (match parseNumeral t with
           | .ok (raw, r2) => .ok (.prim (.num raw), r2)
           | .error e => .error e)

/-- Parse the members of an object after `{` (first member's quote is the
head after whitespace). -/
def parseMembers (fuel : Nat) (s : List Char)
    (acc : List (String × JsonValue)) :
    Except String (JsonValue × List Char) :=
  match fuel with
  | 0 => .error "JSON too deeply nested"
  | fuel + 1 =>
      match s with
      | '"' :: r =>
          (match parseStringBody (r.length + 1) r [] with
           | .error e => .error e
           | .ok (key, r2) =>
               (match skipJWs r2 with
                | ':' :: r3 =>
                    (match parseValue fuel r3 with
                     | .error e => .error e
                     | .ok (v, r4) =>
                         let acc2 := insertField acc key v
                         (match skipJWs r4 with
                          | ',' :: r5 => parseMembers fuel (skipJWs r5) acc2
                          | '}' :: r5 => .ok (.obj (canonicalFields acc2), r5)
                          | _ => .error "Expected comma or brace in JSON object"))
                | _ => .error "Expected colon in JSON object"))
      | _ => .error "Expected string key in JSON object"

/-- Parse the elements of an array after `[`. -/
def parseElements (fuel : Nat) (s : List Char) (acc : List JsonValue) :
    Except String (JsonValue × List Char) :=
  match fuel with
  | 0 => .error "JSON too deeply nested"
  | fuel + 1 =>
      (match parseValue fuel s with
       | .error e => .error e
       | .ok (v, r) =>
           match skipJWs r with
           | ',' :: r2 => parseElements fuel r2 (v :: acc)
           | ']' :: r2 => .ok (.arr (v :: acc).reverse, r2)
           | _ => .error "Expected comma or bracket in JSON array")

end

/-- Modelled from the spec: the strict `JSON.parse` entry point (value plus
trailing whitespace, nothing else). -/
def jsonParse (text : String) : Except String JsonValue :=
  match parseValue (text.data.length + 2) text.data with
  | .error e => .error e
  | .ok (v, rest) =>
      match skipJWs rest with
      | [] => .ok v
      | _ => .error "Unexpected non-whitespace character after JSON"

/-- Shallow embedding of `parseWithRecovery`, parameterized by the strict
parser so that its control flow is verified independently of any particular
parser: strict parse, then if the sanitizer changed the text, parse the
candidate; every failure path rethrows the ORIGINAL error `err`. -/
def parseWithRecoveryWith (p : String → Except String JsonValue)
    (text : String) : Except String (JsonValue × Bool × Option String) :=
  match p text with
  | .ok v => .ok (v, false, none)
  | .error err =>
      let candidate := trySanitizeText text
      if candidate = text then .error err
      else
        match p candidate with
        | .ok v => .ok (v, true, some candidate)
        | .error _ => .error err

/-- The recovery parser with the modelled strict parser plugged in. -/
def parseWithRecovery : String → Except String (JsonValue × Bool × Option String) :=
  parseWithRecoveryWith jsonParse

/-! ## Auxiliary definitions used by the claim statements -/

/-- Identifiers of the direct children of the root in one generation: the
root consumes counter value 1, so its first child starts at 2 and each
following child starts after the previous child's subtree. -/
def rootChildIds (j : JsonValue) : List String :=
  match j with
  | .prim _ => []
  | .arr es => headsL es 2
  | .obj fs => headsF fs 2
where
  /-- Leading identifiers of consecutive sibling subtrees (array form). -/
  headsL : List JsonValue → Nat → List String
    | [], _ => []
    | v :: r, c => ("n_" ++ natDec c) :: headsL r (c + sizeV v)
  /-- Leading identifiers of consecutive sibling subtrees (object form). -/
  headsF : List (String × JsonValue) → Nat → List String
    | [], _ => []
    | (_, v) :: r, c => ("n_" ++ natDec c) :: headsF r (c + sizeV v)

/-- A key is layout-safe when it contains neither `'.'` nor `'['` (the two
characters the path grammar uses to start a new segment). -/
def keyOkB (k : String) : Bool :=
  k.data.all (fun c => !(c = '.' || c = '['))

/-- No duplicates in a key list. -/
def nodupKeysB : List String → Bool
  | [] => true
  | k :: r => !(r.contains k) && nodupKeysB r

mutual

/-- All object key lists in the tree are duplicate-free and all keys are
layout-safe (`keyOkB`).  `JSON.parse` output always satisfies the
duplicate-freeness; layout-safety additionally excludes keys containing
`'.'` or `'['`. -/
def goodV : JsonValue → Bool
  | .prim _ => true
  | .arr es => goodL es
  | .obj fs => nodupKeysB (fs.map Prod.fst) && goodF fs

/-- `goodV` on element lists. -/
def goodL : List JsonValue → Bool
  | [] => true
  | v :: r => goodV v && goodL r

/-- `goodV` on field lists, plus layout-safety of every key. -/
def goodF : List (String × JsonValue) → Bool
  | [] => true
  | (k, v) :: r => keyOkB k && goodV v && goodF r

end

/-- A path residue is empty or opens a new segment with `'.'` or `'['`. -/
def resOkL (r : List Char) : Prop :=
  r = [] ∨ (∃ t, r = '.' :: t) ∨ (∃ t, r = '[' :: t)

/-- An edge is witnessed inside a node list when both its endpoints are
nodes of the list and the target's path strictly extends the source's. -/
def edgeWit (N : List GNode) (e : GEdge) : Prop :=
  ∃ n1 ∈ N, ∃ n2 ∈ N, e.source = n1.id ∧ e.target = n2.id ∧
    ∃ r, r ≠ [] ∧ n2.path.data = n1.path.data ++ r

mutual

/-- Modelled from claim C5's amended wording: the layout each emitted node
must satisfy, computed directly from the claimed formulas.  A value at
`lvl` levels below the root (root itself at `lvl = 0`, never emitted) sits
at `x = (lvl - 1) * 220`; children's `y` start at the parent's own `y` and
grow by 120 per sibling in traversal order; the root's `y` is 0. -/
def layoutV (j : JsonValue) (p : String) (lvl : Nat) (y : Int) :
    List (String × Int × Int) :=
  (if lvl = 0 then [] else [(p, ((lvl : Int) - 1) * 220, y)]) ++
    (match j with
     | .prim _ => []
     | .obj fs => layoutF fs p (lvl + 1) y
     | .arr es => layoutE es 0 p (lvl + 1) y)

/-- Children layout for object fields. -/
def layoutF (fs : List (String × JsonValue)) (p : String) (lvl : Nat)
    (cy : Int) : List (String × Int × Int) :=
  match fs with
  | [] => []
  | (k, v) :: rest =>
      layoutV v (p ++ "." ++ k) lvl cy ++ layoutF rest p lvl (cy + 120)

/-- Children layout for array elements. -/
def layoutE (es : List JsonValue) (i : Nat) (p : String) (lvl : Nat)
    (cy : Int) : List (String × Int × Int) :=
  match es with
  | [] => []
  | v :: rest =>
      layoutV v (p ++ "[" ++ natDec i ++ "]") lvl cy ++
        layoutE rest (i + 1) p lvl (cy + 120)

end

mutual

theorem traverse_eq_emit :
    ∀ (j : JsonValue) (p : String) (d : Nat) (x y : Int)
      (par : Option String) (st : TState),
      traverseToNodes j p d x y par st =
        { nodes := st.nodes ++ (emitV j p d x y par st.counter).1,
          edges := st.edges ++ (emitV j p d x y par st.counter).2,
          counter := st.counter + sizeV j }
  | .prim q, p, d, x, y, par, st => by
      simp only [traverseToNodes, emitV, sizeV]
      by_cases h : p = "$" <;> cases par <;> simp [h]
  | .obj fs, p, d, x, y, par, st => by
      simp only [traverseToNodes, emitV, sizeV]
      by_cases h : p = "$" <;> cases par <;>
        simp [h, traverseObjF_eq_emit fs, List.append_assoc] <;> omega
  | .arr es, p, d, x, y, par, st => by
      simp only [traverseToNodes, emitV, sizeV]
      by_cases h : p = "$" <;> cases par <;>
        simp [h, traverseArrE_eq_emit es, List.append_assoc] <;> omega
  termination_by j _ _ _ _ _ _ => sizeOf j

theorem traverseObjF_eq_emit :
    ∀ (fs : List (String × JsonValue)) (p : String) (cd : Nat) (x cy : Int)
      (cpar : Option String) (st : TState),
      traverseObjFields fs p cd x cy cpar st =
        { nodes := st.nodes ++ (emitF fs p cd x cy cpar st.counter).1,
          edges := st.edges ++ (emitF fs p cd x cy cpar st.counter).2,
          counter := st.counter + sizeV.sizeF fs }
  | [], p, cd, x, cy, cpar, st => by
      simp [traverseObjFields, emitF, sizeV.sizeF]
  | (k, v) :: rest, p, cd, x, cy, cpar, st => by
      simp only [traverseObjFields, emitF]
      rw [traverse_eq_emit v, traverseObjF_eq_emit rest]
      simp [sizeV.sizeF, List.append_assoc]
      omega
  termination_by fs _ _ _ _ _ _ => sizeOf fs

theorem traverseArrE_eq_emit :
    ∀ (es : List JsonValue) (i : Nat) (p : String) (cd : Nat) (x cy : Int)
      (cpar : Option String) (st : TState),
      traverseArrElems es i p cd x cy cpar st =
        { nodes := st.nodes ++ (emitE es i p cd x cy cpar st.counter).1,
          edges := st.edges ++ (emitE es i p cd x cy cpar st.counter).2,
          counter := st.counter + sizeV.sizeL es }
  | [], i, p, cd, x, cy, cpar, st => by
      simp [traverseArrElems, emitE, sizeV.sizeL]
  | v :: rest, i, p, cd, x, cy, cpar, st => by
      simp only [traverseArrElems, emitE]
      rw [traverse_eq_emit v, traverseArrE_eq_emit rest]
      simp [sizeV.sizeL, List.append_assoc]
      omega
  termination_by es _ _ _ _ _ _ _ => sizeOf es

end

/-- `buildGraph` in terms of the pure emission functions. -/
theorem buildGraph_eq (j : JsonValue) :
    buildGraph j =
      { nodes := (emitV j "$" 0 0 0 none 1).1,
        edges := (emitV j "$" 0 0 0 none 1).2,
        counter := 1 + sizeV j } := by
  simp [buildGraph, traverse_eq_emit]

/-! ## Facts about decimal rendering -/

theorem digitChar_digit {d : Nat} (h : d < 10) : isDigitCh (digitChar d) = true := by
  interval_cases d <;> decide

theorem digitChar_val {d : Nat} (h : d < 10) : (digitChar d).toNat - 48 = d := by
  interval_cases d <;> decide

theorem natDecAux_lt {fuel n : Nat} (hf : n < fuel) (h : n < 10)
    (acc : List Char) : natDecAux fuel n acc = digitChar n :: acc := by
  cases fuel with
  | zero => omega
  | succ f => simp [natDecAux, h]

theorem natDecAux_ge {fuel n : Nat} (h : ¬ n < 10) (acc : List Char) :
    natDecAux (fuel + 1) n acc =
      natDecAux fuel (n / 10) (digitChar (n % 10) :: acc) := by
  simp [natDecAux, h]

theorem natDecAux_fuel : ∀ (f1 f2 n : Nat) (acc : List Char), n < f1 →
    n < f2 → natDecAux f1 n acc = natDecAux f2 n acc := by
  intro f1
  induction f1 with
  | zero => intro f2 n acc h1; omega
  | succ f ih =>
      intro f2 n acc h1 h2
      cases f2 with
      | zero => omega
      | succ f2 =>
          by_cases h : n < 10
          · rw [natDecAux_lt h1 h, natDecAux_lt h2 h]
          · rw [natDecAux_ge h, natDecAux_ge h]
            have hx : n / 10 < n := Nat.div_lt_self (by omega) (by omega)
            exact ih f2 (n / 10) _ (by omega) (by omega)

theorem natDecAux_append : ∀ (fuel n : Nat) (acc : List Char), n < fuel →
    natDecAux fuel n acc = natDecAux fuel n [] ++ acc := by
  intro fuel
  induction fuel with
  | zero => intro n acc h; omega
  | succ f ih =>
      intro n acc h
      by_cases h10 : n < 10
      · rw [natDecAux_lt h h10, natDecAux_lt h h10]
        simp
      · have hx : n / 10 < n := Nat.div_lt_self (by omega) (by omega)
        rw [natDecAux_ge h10, natDecAux_ge h10,
          ih (n / 10) (digitChar (n % 10) :: acc) (by omega),
          ih (n / 10) [digitChar (n % 10)] (by omega), List.append_assoc]
        simp

theorem natDecAux_ne_nil {fuel n : Nat} (h : n < fuel) :
    natDecAux fuel n [] ≠ [] := by
  cases fuel with
  | zero => omega
  | succ f =>
      by_cases h10 : n < 10
      · rw [natDecAux_lt h h10]
        simp
      · have hx : n / 10 < n := Nat.div_lt_self (by omega) (by omega)
        rw [natDecAux_ge h10, natDecAux_append f (n / 10) _ (by omega)]
        simp

theorem mem_natDecAux_digit : ∀ (fuel : Nat) {c : Char} {n : Nat},
    n < fuel → c ∈ natDecAux fuel n [] → isDigitCh c = true := by
  intro fuel
  induction fuel with
  | zero => intro c n h1 h2; omega
  | succ f ih =>
      intro c n h1 h
      by_cases h10 : n < 10
      · rw [natDecAux_lt h1 h10] at h
        simp at h
        exact h ▸ digitChar_digit h10
      · have hx : n / 10 < n := Nat.div_lt_self (by omega) (by omega)
        rw [natDecAux_ge h10, natDecAux_append f (n / 10) _ (by omega)] at h
        rcases List.mem_append.1 h with h1 | h1
        · exact ih (by omega) h1
        · simp at h1
          exact h1 ▸ digitChar_digit (Nat.mod_lt n (by omega))

theorem foldl_natDecAux : ∀ (fuel n : Nat), n < fuel → ∀ (a : Nat),
    (natDecAux fuel n []).foldl (fun x c => x * 10 + (c.toNat - 48)) a =
      a * 10 ^ (natDecAux fuel n []).length + n := by
  intro fuel
  induction fuel with
  | zero => intro n h; omega
  | succ f ih =>
      intro n h a
      by_cases h10 : n < 10
      · rw [natDecAux_lt h h10]
        simp [List.foldl, digitChar_val h10]
      · have hx : n / 10 < n := Nat.div_lt_self (by omega) (by omega)
        rw [natDecAux_ge h10, natDecAux_append f (n / 10) _ (by omega),
          List.foldl_append, List.length_append, ih (n / 10) (by omega) a]
        simp only [List.foldl, List.length_cons, List.length_nil]
        rw [digitChar_val (Nat.mod_lt n (by omega))]
        have hpow : 10 ^ ((natDecAux f (n / 10) []).length + (0 + 1)) =
            10 ^ (natDecAux f (n / 10) []).length * 10 := by
          rw [Nat.zero_add, pow_succ]
        rw [hpow]
        have hdm := Nat.div_add_mod n 10
        set L := 10 ^ (natDecAux f (n / 10) []).length with hL
        ring_nf
        ring_nf at *
        omega

theorem decDigitsVal_natDec (n : Nat) : decDigitsVal (natDec n).data = n := by
  have := foldl_natDecAux (n + 1) n (by omega) 0
  simpa [decDigitsVal, natDec] using this

theorem natDec_inj {m n : Nat} (h : natDec m = natDec n) : m = n := by
  have := decDigitsVal_natDec m
  rw [h, decDigitsVal_natDec] at this
  omega

theorem mem_natDec_digit {c : Char} {n : Nat} (h : c ∈ (natDec n).data) :
    isDigitCh c = true :=
  mem_natDecAux_digit (n + 1) (by omega) h

theorem mkId_inj {m n : Nat} (h : "n_" ++ natDec m = "n_" ++ natDec n) :
    m = n := by
  have hd := congrArg String.data h
  rw [String.data_append, String.data_append] at hd
  have : (natDec m).data = (natDec n).data :=
    List.append_cancel_left hd
  exact natDec_inj (String.ext this)

/-! ## Path shape lemmas -/

theorem path_dot_ne_root (x k : String) : x ++ "." ++ k ≠ "$" := by
  intro h
  have hd := congrArg String.data h
  rw [String.data_append, String.data_append] at hd
  have hl := congrArg List.length hd
  simp only [List.length_append] at hl
  have h1 : (['.'] : List Char).length = 1 := rfl
  have h2 : (['$'] : List Char).length = 1 := rfl
  have hx : x.data = [] := List.length_eq_zero.mp (by omega)
  have hk : k.data = [] := List.length_eq_zero.mp (by omega)
  rw [hx, hk] at hd
  simp at hd

theorem path_idx_ne_root (x : String) (i : Nat) :
    x ++ "[" ++ natDec i ++ "]" ≠ "$" := by
  intro h
  have hd := congrArg String.data h
  rw [String.data_append, String.data_append, String.data_append] at hd
  have hl := congrArg List.length hd
  simp only [List.length_append] at hl
  have h1 : (['['] : List Char).length = 1 := rfl
  have h2 : ([']'] : List Char).length = 1 := rfl
  have h3 : (['$'] : List Char).length = 1 := rfl
  omega

theorem range'_append_my (s m n : Nat) :
    List.range' s m ++ List.range' (s + m) n = List.range' s (m + n) := by
  induction m generalizing s with
  | zero => simp [List.range']
  | succ m ih =>
      have e1 : s + (m + 1) = (s + 1) + m := by omega
      have e2 : m + 1 + n = (m + n) + 1 := by omega
      rw [List.range'_succ, List.cons_append, e1, ih (s + 1), e2,
        List.range'_succ]

/-! ## Identifier sequence -/

mutual

theorem emitV_ids : ∀ (j : JsonValue) (p : String) (d : Nat) (x y : Int)
    (par : Option String) (c : Nat), p ≠ "$" →
    (emitV j p d x y par c).1.map (fun n => n.id) =
      (List.range' c (sizeV j)).map (fun k => "n_" ++ natDec k)
  | .prim q, p, d, x, y, par, c, h => by
      simp [emitV, h, sizeV, List.range']
  | .obj fs, p, d, x, y, par, c, h => by
      have hf := emitF_ids fs p (d + 1) x y (some ("n_" ++ natDec c)) (c + 1)
      simp only [emitV, h, if_false, if_neg, sizeV]
      simp [hf, Nat.add_comm 1 (sizeV.sizeF fs), List.range'_succ]
  | .arr es, p, d, x, y, par, c, h => by
      have he := emitE_ids es 0 p (d + 1) x y (some ("n_" ++ natDec c)) (c + 1)
      simp only [emitV, h, if_false, if_neg, sizeV]
      simp [he, Nat.add_comm 1 (sizeV.sizeL es), List.range'_succ]
  termination_by j _ _ _ _ _ _ _ => sizeOf j

theorem emitF_ids : ∀ (fs : List (String × JsonValue)) (p : String)
    (cd : Nat) (x cy : Int) (cpar : Option String) (c : Nat),
    (emitF fs p cd x cy cpar c).1.map (fun n => n.id) =
      (List.range' c (sizeV.sizeF fs)).map (fun k => "n_" ++ natDec k)
  | [], p, cd, x, cy, cpar, c => by
      simp [emitF, sizeV.sizeF, List.range']
  | (k, v) :: rest, p, cd, x, cy, cpar, c => by
      have hv := emitV_ids v ((if p = "$" then "$" else p) ++ "." ++ k)
        cd x cy cpar c (path_dot_ne_root _ k)
      have hr := emitF_ids rest p cd x (cy + 120) cpar (c + sizeV v)
      simp only [emitF, List.map_append, hv, hr, sizeV.sizeF]
      rw [← List.map_append, range'_append_my]
  termination_by fs => sizeOf fs

theorem emitE_ids : ∀ (es : List JsonValue) (i : Nat) (p : String)
    (cd : Nat) (x cy : Int) (cpar : Option String) (c : Nat),
    (emitE es i p cd x cy cpar c).1.map (fun n => n.id) =
      (List.range' c (sizeV.sizeL es)).map (fun k => "n_" ++ natDec k)
  | [], i, p, cd, x, cy, cpar, c => by
      simp [emitE, sizeV.sizeL, List.range']
  | v :: rest, i, p, cd, x, cy, cpar, c => by
      have hv := emitV_ids v (p ++ "[" ++ natDec i ++ "]")
        cd x cy cpar c (path_idx_ne_root p i)
      have hr := emitE_ids rest (i + 1) p cd x (cy + 120) cpar (c + sizeV v)
      simp only [emitE, List.map_append, hv, hr, sizeV.sizeL]
      rw [← List.map_append, range'_append_my]
  termination_by es => sizeOf es

end

/-- The node list of one generation carries ids `n_2, n_3, ...` in order. -/
theorem buildGraph_ids (j : JsonValue) :
    (buildGraph j).nodes.map (fun n => n.id) =
      (List.range' 2 (sizeV j - 1)).map (fun k => "n_" ++ natDec k) := by
  rw [buildGraph_eq]
  cases j with
  | prim q => simp [emitV, sizeV, List.range']
  | obj fs =>
      have hf := emitF_ids fs "$" 0 0 0 none 2
      simp only [emitV, if_pos rfl, if_true]
      simpa [sizeV, Nat.add_sub_cancel_left] using hf
  | arr es =>
      have he := emitE_ids es 0 "$" 0 0 0 none 2
      simp only [emitV, if_pos rfl, if_true]
      simpa [sizeV, Nat.add_sub_cancel_left] using he

/-! ## Per-node invariants: label, type tag, highlight default -/

mutual

theorem emitV_fields : ∀ (j : JsonValue) (p : String) (d : Nat) (x y : Int)
    (par : Option String) (c : Nat), p ≠ "$" →
    ∀ n ∈ (emitV j p d x y par c).1,
      n.label = mkLabel n.value n.path ∧ n.type = typeOf n.value ∧
        n.highlighted = false
  | .prim q, p, d, x, y, par, c, h => by
      intro n hn
      simp [emitV, h] at hn
      subst hn
      exact ⟨rfl, rfl, rfl⟩
  | .obj fs, p, d, x, y, par, c, h => by
      intro n hn
      simp only [emitV, h, if_neg, if_false] at hn
      rcases List.mem_append.1 hn with h1 | h1
      · simp at h1
        subst h1
        exact ⟨rfl, rfl, rfl⟩
      · exact emitF_fields fs p (d + 1) x y (some ("n_" ++ natDec c)) (c + 1)
          n h1
  | .arr es, p, d, x, y, par, c, h => by
      intro n hn
      simp only [emitV, h, if_neg, if_false] at hn
      rcases List.mem_append.1 hn with h1 | h1
      · simp at h1
        subst h1
        exact ⟨rfl, rfl, rfl⟩
      · exact emitE_fields es 0 p (d + 1) x y (some ("n_" ++ natDec c)) (c + 1)
          n h1
  termination_by j _ _ _ _ _ _ _ => sizeOf j

theorem emitF_fields : ∀ (fs : List (String × JsonValue)) (p : String)
    (cd : Nat) (x cy : Int) (cpar : Option String) (c : Nat),
    ∀ n ∈ (emitF fs p cd x cy cpar c).1,
      n.label = mkLabel n.value n.path ∧ n.type = typeOf n.value ∧
        n.highlighted = false
  | [], p, cd, x, cy, cpar, c => by
      intro n hn
      simp [emitF] at hn
  | (k, v) :: rest, p, cd, x, cy, cpar, c => by
      intro n hn
      simp only [emitF] at hn
      rcases List.mem_append.1 hn with h1 | h1
      · exact emitV_fields v ((if p = "$" then "$" else p) ++ "." ++ k)
          cd x cy cpar c (path_dot_ne_root _ k) n h1
      · exact emitF_fields rest p cd x (cy + 120) cpar (c + sizeV v) n h1
  termination_by fs _ _ _ _ _ _ => sizeOf fs

theorem emitE_fields : ∀ (es : List JsonValue) (i : Nat) (p : String)
    (cd : Nat) (x cy : Int) (cpar : Option String) (c : Nat),
    ∀ n ∈ (emitE es i p cd x cy cpar c).1,
      n.label = mkLabel n.value n.path ∧ n.type = typeOf n.value ∧
        n.highlighted = false
  | [], i, p, cd, x, cy, cpar, c => by
      intro n hn
      simp [emitE] at hn
  | v :: rest, i, p, cd, x, cy, cpar, c => by
      intro n hn
      simp only [emitE] at hn
      rcases List.mem_append.1 hn with h1 | h1
      · exact emitV_fields v (p ++ "[" ++ natDec i ++ "]")
          cd x cy cpar c (path_idx_ne_root p i) n h1
      · exact emitE_fields rest (i + 1) p cd x (cy + 120) cpar (c + sizeV v) n h1
  termination_by es _ _ _ _ _ _ _ => sizeOf es

end

/-- Every node of a generation computes its label from its own value and
path exactly as `mkLabel` does, its type tag from `typeOf`, and starts
unhighlighted. -/
theorem buildGraph_fields (j : JsonValue) :
    ∀ n ∈ (buildGraph j).nodes,
      n.label = mkLabel n.value n.path ∧ n.type = typeOf n.value ∧
        n.highlighted = false := by
  intro n hn
  rw [buildGraph_eq] at hn
  simp only at hn
  cases j with
  | prim q => simp [emitV] at hn
  | obj fs =>
      simp [emitV] at hn
      exact emitF_fields fs "$" 0 0 0 none 2 n hn
  | arr es =>
      simp [emitV] at hn
      exact emitE_fields es 0 "$" 0 0 0 none 2 n hn

/-! ## Layout refinement -/

mutual

theorem emitV_layout : ∀ (j : JsonValue) (p : String) (d : Nat) (y : Int)
    (par : Option String) (c : Nat), p ≠ "$" →
    (emitV j p d 0 y par c).1.map (fun n => (n.path, n.x, n.y)) =
      layoutV j p (d + 1) y
  | .prim q, p, d, y, par, c, h => by
      simp [emitV, layoutV, h]
  | .obj fs, p, d, y, par, c, h => by
      have hf := emitF_layout fs p (d + 1) y (some ("n_" ++ natDec c)) (c + 1)
      simp [emitV, layoutV, h, hf]
  | .arr es, p, d, y, par, c, h => by
      have he := emitE_layout es 0 p (d + 1) y (some ("n_" ++ natDec c)) (c + 1)
      simp [emitV, layoutV, h, he]
  termination_by j _ _ _ _ _ _ => sizeOf j

theorem emitF_layout : ∀ (fs : List (String × JsonValue)) (p : String)
    (cd : Nat) (cy : Int) (cpar : Option String) (c : Nat),
    (emitF fs p cd 0 cy cpar c).1.map (fun n => (n.path, n.x, n.y)) =
      layoutF fs p (cd + 1) cy
  | [], p, cd, cy, cpar, c => by
      simp [emitF, layoutF]
  | (k, v) :: rest, p, cd, cy, cpar, c => by
      have hv := emitV_layout v ((if p = "$" then "$" else p) ++ "." ++ k)
        cd cy cpar c (path_dot_ne_root _ k)
      have hr := emitF_layout rest p cd (cy + 120) cpar (c + sizeV v)
      simp only [emitF, layoutF, List.map_append, hv, hr]
      by_cases hp : p = "$" <;> simp [hp]
  termination_by fs _ _ _ _ _ => sizeOf fs

theorem emitE_layout : ∀ (es : List JsonValue) (i : Nat) (p : String)
    (cd : Nat) (cy : Int) (cpar : Option String) (c : Nat),
    (emitE es i p cd 0 cy cpar c).1.map (fun n => (n.path, n.x, n.y)) =
      layoutE es i p (cd + 1) cy
  | [], i, p, cd, cy, cpar, c => by
      simp [emitE, layoutE]
  | v :: rest, i, p, cd, cy, cpar, c => by
      have hv := emitV_layout v (p ++ "[" ++ natDec i ++ "]")
        cd cy cpar c (path_idx_ne_root p i)
      have hr := emitE_layout rest (i + 1) p cd (cy + 120) cpar (c + sizeV v)
      simp only [emitE, layoutE, List.map_append, hv, hr]
  termination_by es _ _ _ _ _ _ => sizeOf es

end

/-- The produced layout equals the claimed layout rule with the root at
level 0 and each emitted node at `x = (level - 1) * 220`. -/
theorem buildGraph_layout (j : JsonValue) :
    (buildGraph j).nodes.map (fun n => (n.path, n.x, n.y)) =
      layoutV j "$" 0 0 := by
  rw [buildGraph_eq]
  cases j with
  | prim q => simp [emitV, layoutV]
  | obj fs =>
      have hf := emitF_layout fs "$" 0 0 none 2
      simp [emitV, layoutV, hf]
  | arr es =>
      have he := emitE_layout es 0 "$" 0 0 none 2
      simp [emitV, layoutV, he]

/-! ## Edge structure -/

theorem sizeV_pos (j : JsonValue) : 1 ≤ sizeV j := by
  cases j <;> simp [sizeV] <;> omega

theorem sizeF_ge_len (fs : List (String × JsonValue)) :
    fs.length ≤ sizeV.sizeF fs := by
  induction fs with
  | nil => simp [sizeV.sizeF]
  | cons kv rest ih =>
      obtain ⟨k, v⟩ := kv
      have := sizeV_pos v
      simp [sizeV.sizeF]
      omega

theorem sizeL_ge_len (es : List JsonValue) : es.length ≤ sizeV.sizeL es := by
  induction es with
  | nil => simp [sizeV.sizeL]
  | cons v rest ih =>
      have := sizeV_pos v
      simp [sizeV.sizeL]
      omega

mutual

theorem emitV_elen : ∀ (j : JsonValue) (p : String) (d : Nat) (x y : Int)
    (par : Option String) (c : Nat), p ≠ "$" →
    (emitV j p d x y par c).2.length =
      sizeV j - (if par.isNone then 1 else 0)
  | .prim q, p, d, x, y, par, c, h => by
      cases par <;> simp [emitV, h, sizeV]
  | .obj fs, p, d, x, y, par, c, h => by
      have hf := emitF_elen fs p (d + 1) x y (some ("n_" ++ natDec c)) (c + 1)
      cases par <;> simp [emitV, h, sizeV, hf] <;> omega
  | .arr es, p, d, x, y, par, c, h => by
      have he := emitE_elen es 0 p (d + 1) x y (some ("n_" ++ natDec c)) (c + 1)
      cases par <;> simp [emitV, h, sizeV, he] <;> omega
  termination_by j _ _ _ _ _ _ _ => sizeOf j

theorem emitF_elen : ∀ (fs : List (String × JsonValue)) (p : String)
    (cd : Nat) (x cy : Int) (cpar : Option String) (c : Nat),
    (emitF fs p cd x cy cpar c).2.length =
      sizeV.sizeF fs - (if cpar.isNone then fs.length else 0)
  | [], p, cd, x, cy, cpar, c => by simp [emitF, sizeV.sizeF]
  | (k, v) :: rest, p, cd, x, cy, cpar, c => by
      have hv := emitV_elen v ((if p = "$" then "$" else p) ++ "." ++ k)
        cd x cy cpar c (path_dot_ne_root _ k)
      have hr := emitF_elen rest p cd x (cy + 120) cpar (c + sizeV v)
      have h1 := sizeV_pos v
      have h2 := sizeF_ge_len rest
      cases cpar <;> simp [emitF, sizeV.sizeF, hv, hr] <;> omega
  termination_by fs _ _ _ _ _ _ => sizeOf fs

theorem emitE_elen : ∀ (es : List JsonValue) (i : Nat) (p : String)
    (cd : Nat) (x cy : Int) (cpar : Option String) (c : Nat),
    (emitE es i p cd x cy cpar c).2.length =
      sizeV.sizeL es - (if cpar.isNone then es.length else 0)
  | [], i, p, cd, x, cy, cpar, c => by simp [emitE, sizeV.sizeL]
  | v :: rest, i, p, cd, x, cy, cpar, c => by
      have hv := emitV_elen v (p ++ "[" ++ natDec i ++ "]")
        cd x cy cpar c (path_idx_ne_root p i)
      have hr := emitE_elen rest (i + 1) p cd x (cy + 120) cpar (c + sizeV v)
      have h1 := sizeV_pos v
      have h2 := sizeL_ge_len rest
      cases cpar <;> simp [emitE, sizeV.sizeL, hv, hr] <;> omega
  termination_by es _ _ _ _ _ _ _ => sizeOf es

end

/-- Node and edge counts of one generation: one node per non-root value,
one edge per node that is not a direct child of the root. -/
theorem buildGraph_counts (j : JsonValue) :
    (buildGraph j).nodes.length = sizeV j - 1 ∧
      (buildGraph j).edges.length = (sizeV j - 1) - childCount j := by
  rw [buildGraph_eq]
  constructor
  · have h := buildGraph_ids j
    rw [buildGraph_eq] at h
    simp only at h
    have := congrArg List.length h
    simpa using this
  · cases j with
    | prim q => simp [emitV, sizeV, childCount]
    | obj fs =>
        have hf := emitF_elen fs "$" 0 0 0 none 2
        simp only [emitV, if_pos rfl]
        simp [sizeV, childCount]
        simp at hf
        omega
    | arr es =>
        have he := emitE_elen es 0 "$" 0 0 0 none 2
        simp only [emitV, if_pos rfl]
        simp [sizeV, childCount]
        simp at he
        omega

mutual

theorem emitV_targets : ∀ (j : JsonValue) (p : String) (d : Nat) (x y : Int)
    (par : Option String) (c : Nat), p ≠ "$" →
    (emitV j p d x y par c).2.map (fun e => e.target) =
      (match par with
       | some _ => (emitV j p d x y par c).1.map (fun n => n.id)
       | none => ((emitV j p d x y par c).1.map (fun n => n.id)).tail)
  | .prim q, p, d, x, y, par, c, h => by
      cases par <;> simp [emitV, h]
  | .obj fs, p, d, x, y, par, c, h => by
      have hf := emitF_targets_s fs p (d + 1) x y ("n_" ++ natDec c) (c + 1)
      cases par <;> simp [emitV, h, hf]
  | .arr es, p, d, x, y, par, c, h => by
      have he := emitE_targets_s es 0 p (d + 1) x y ("n_" ++ natDec c) (c + 1)
      cases par <;> simp [emitV, h, he]
  termination_by j _ _ _ _ _ _ _ => sizeOf j

theorem emitF_targets_s : ∀ (fs : List (String × JsonValue)) (p : String)
    (cd : Nat) (x cy : Int) (pid : String) (c : Nat),
    (emitF fs p cd x cy (some pid) c).2.map (fun e => e.target) =
      (emitF fs p cd x cy (some pid) c).1.map (fun n => n.id)
  | [], p, cd, x, cy, pid, c => by simp [emitF]
  | (k, v) :: rest, p, cd, x, cy, pid, c => by
      have hv := emitV_targets v ((if p = "$" then "$" else p) ++ "." ++ k)
        cd x cy (some pid) c (path_dot_ne_root _ k)
      have hr := emitF_targets_s rest p cd x (cy + 120) pid (c + sizeV v)
      simp only at hv
      simp [emitF, hv, hr]
  termination_by fs _ _ _ _ _ _ => sizeOf fs

theorem emitE_targets_s : ∀ (es : List JsonValue) (i : Nat) (p : String)
    (cd : Nat) (x cy : Int) (pid : String) (c : Nat),
    (emitE es i p cd x cy (some pid) c).2.map (fun e => e.target) =
      (emitE es i p cd x cy (some pid) c).1.map (fun n => n.id)
  | [], i, p, cd, x, cy, pid, c => by simp [emitE]
  | v :: rest, i, p, cd, x, cy, pid, c => by
      have hv := emitV_targets v (p ++ "[" ++ natDec i ++ "]")
        cd x cy (some pid) c (path_idx_ne_root p i)
      have hr := emitE_targets_s rest (i + 1) p cd x (cy + 120) pid (c + sizeV v)
      simp only at hv
      simp [emitE, hv, hr]
  termination_by es _ _ _ _ _ _ _ => sizeOf es

end

theorem headsF_mem : ∀ (fs : List (String × JsonValue)) (c0 : Nat)
    {s : String}, s ∈ rootChildIds.headsF fs c0 →
    ∃ m, s = "n_" ++ natDec m ∧ c0 ≤ m
  | [], c0, s, h => by simp [rootChildIds.headsF] at h
  | (k, v) :: rest, c0, s, h => by
      simp only [rootChildIds.headsF, List.mem_cons] at h
      rcases h with h | h
      · exact ⟨c0, h, le_refl c0⟩
      · obtain ⟨m, hm, hle⟩ := headsF_mem rest (c0 + sizeV v) h
        exact ⟨m, hm, by omega⟩

theorem headsL_mem : ∀ (es : List JsonValue) (c0 : Nat) {s : String},
    s ∈ rootChildIds.headsL es c0 → ∃ m, s = "n_" ++ natDec m ∧ c0 ≤ m
  | [], c0, s, h => by simp [rootChildIds.headsL] at h
  | v :: rest, c0, s, h => by
      simp only [rootChildIds.headsL, List.mem_cons] at h
      rcases h with h | h
      · exact ⟨c0, h, le_refl c0⟩
      · obtain ⟨m, hm, hle⟩ := headsL_mem rest (c0 + sizeV v) h
        exact ⟨m, hm, by omega⟩

theorem emitF_targets_none : ∀ (fs : List (String × JsonValue)) (p : String)
    (cd : Nat) (x cy : Int) (c : Nat),
    (emitF fs p cd x cy none c).2.map (fun e => e.target) =
      ((emitF fs p cd x cy none c).1.map (fun n => n.id)).filter
        (fun s => decide (¬ s ∈ rootChildIds.headsF fs c))
  | [], p, cd, x, cy, c => by simp [emitF, rootChildIds.headsF]
  | (k, v) :: rest, p, cd, x, cy, c => by
      have hv := emitV_targets v ((if p = "$" then "$" else p) ++ "." ++ k)
        cd x cy none c (path_dot_ne_root _ k)
      have hvi := emitV_ids v ((if p = "$" then "$" else p) ++ "." ++ k)
        cd x cy none c (path_dot_ne_root _ k)
      have hr := emitF_targets_none rest p cd x (cy + 120) (c + sizeV v)
      have hri := emitF_ids rest p cd x (cy + 120) none (c + sizeV v)
      simp only at hv
      simp only [emitF, List.map_append, List.filter_append, hv, hr]
      congr 1
      · -- the first block: filtering removes exactly the head
        rw [hvi]
        have hsz : sizeV v = (sizeV v - 1) + 1 := by
          have := sizeV_pos v
          omega
        rw [hsz, List.range'_succ, List.map_cons]
        rw [List.filter_cons]
        have hhead : ("n_" ++ natDec c) ∈ rootChildIds.headsF ((k, v) :: rest) c := by
          simp [rootChildIds.headsF]
        simp only [hhead, not_true, decide_False, if_neg, if_false,
          decide_eq_true_eq]
        have : ∀ s ∈ (List.range' (c + 1) (sizeV v - 1)).map
            (fun m => "n_" ++ natDec m),
            (decide (¬ s ∈ rootChildIds.headsF ((k, v) :: rest) c)) = true := by
          intro s hs
          simp only [List.mem_map] at hs
          obtain ⟨m, hm, rfl⟩ := hs
          rw [List.mem_range'_1] at hm
          simp only [decide_eq_true_eq]
          intro hmem
          simp only [rootChildIds.headsF, List.mem_cons] at hmem
          rcases hmem with hmem | hmem
          · have := mkId_inj hmem
            omega
          · obtain ⟨m2, heq, hle⟩ := headsF_mem rest (c + sizeV v) hmem
            have := mkId_inj heq
            omega
        rw [List.filter_eq_self.mpr this]
        simp
      · -- the rest block: the extra head is irrelevant for later ids
        rw [hri]
        apply List.filter_congr
        intro s hs
        simp only [List.mem_map] at hs
        obtain ⟨m, hm, rfl⟩ := hs
        rw [List.mem_range'_1] at hm
        have hiff : ("n_" ++ natDec m) ∈ rootChildIds.headsF ((k, v) :: rest) c ↔
            ("n_" ++ natDec m) ∈ rootChildIds.headsF rest (c + sizeV v) := by
          simp only [rootChildIds.headsF, List.mem_cons]
          constructor
          · rintro (h1 | h1)
            · exfalso
              have hc := mkId_inj h1
              have hp := sizeV_pos v
              omega
            · exact h1
          · exact Or.inr
        simp [hiff]

theorem emitE_targets_none : ∀ (es : List JsonValue) (i : Nat) (p : String)
    (cd : Nat) (x cy : Int) (c : Nat),
    (emitE es i p cd x cy none c).2.map (fun e => e.target) =
      ((emitE es i p cd x cy none c).1.map (fun n => n.id)).filter
        (fun s => decide (¬ s ∈ rootChildIds.headsL es c))
  | [], i, p, cd, x, cy, c => by simp [emitE, rootChildIds.headsL]
  | v :: rest, i, p, cd, x, cy, c => by
      have hv := emitV_targets v (p ++ "[" ++ natDec i ++ "]")
        cd x cy none c (path_idx_ne_root p i)
      have hvi := emitV_ids v (p ++ "[" ++ natDec i ++ "]")
        cd x cy none c (path_idx_ne_root p i)
      have hr := emitE_targets_none rest (i + 1) p cd x (cy + 120) (c + sizeV v)
      have hri := emitE_ids rest (i + 1) p cd x (cy + 120) none (c + sizeV v)
      simp only at hv
      simp only [emitE, List.map_append, List.filter_append, hv, hr]
      congr 1
      · rw [hvi]
        have hsz : sizeV v = (sizeV v - 1) + 1 := by
          have := sizeV_pos v
          omega
        rw [hsz, List.range'_succ, List.map_cons]
        rw [List.filter_cons]
        have hhead : ("n_" ++ natDec c) ∈ rootChildIds.headsL (v :: rest) c := by
          simp [rootChildIds.headsL]
        simp only [hhead, not_true, decide_False, if_neg, if_false,
          decide_eq_true_eq]
        have : ∀ s ∈ (List.range' (c + 1) (sizeV v - 1)).map
            (fun m => "n_" ++ natDec m),
            (decide (¬ s ∈ rootChildIds.headsL (v :: rest) c)) = true := by
          intro s hs
          simp only [List.mem_map] at hs
          obtain ⟨m, hm, rfl⟩ := hs
          rw [List.mem_range'_1] at hm
          simp only [decide_eq_true_eq]
          intro hmem
          simp only [rootChildIds.headsL, List.mem_cons] at hmem
          rcases hmem with hmem | hmem
          · have := mkId_inj hmem
            omega
          · obtain ⟨m2, heq, hle⟩ := headsL_mem rest (c + sizeV v) hmem
            have := mkId_inj heq
            omega
        rw [List.filter_eq_self.mpr this]
        simp
      · rw [hri]
        apply List.filter_congr
        intro s hs
        simp only [List.mem_map] at hs
        obtain ⟨m, hm, rfl⟩ := hs
        rw [List.mem_range'_1] at hm
        have hiff : ("n_" ++ natDec m) ∈ rootChildIds.headsL (v :: rest) c ↔
            ("n_" ++ natDec m) ∈ rootChildIds.headsL rest (c + sizeV v) := by
          simp only [rootChildIds.headsL, List.mem_cons]
          constructor
          · rintro (h1 | h1)
            · exfalso
              have hc := mkId_inj h1
              have hp := sizeV_pos v
              omega
            · exact h1
          · exact Or.inr
        simp [hiff]

/-- The edge targets are exactly the non-root-child node ids, in order. -/
theorem buildGraph_targets (j : JsonValue) :
    (buildGraph j).edges.map (fun e => e.target) =
      ((buildGraph j).nodes.map (fun n => n.id)).filter
        (fun s => decide (¬ s ∈ rootChildIds j)) := by
  rw [buildGraph_eq]
  cases j with
  | prim q => simp [emitV, rootChildIds]
  | obj fs =>
      have h := emitF_targets_none fs "$" 0 0 0 2
      simpa [emitV, rootChildIds] using h
  | arr es =>
      have h := emitE_targets_none es 0 "$" 0 0 0 2
      simpa [emitV, rootChildIds] using h

/-- Ids are duplicate-free within a generation. -/
theorem buildGraph_ids_nodup (j : JsonValue) :
    ((buildGraph j).nodes.map (fun n => n.id)).Nodup := by
  rw [buildGraph_ids]
  apply List.Nodup.map
  · intro a b hab
    exact natDec_inj (String.ext (List.append_cancel_left
      (congrArg String.data hab)))
  · exact List.nodup_range' _ _

theorem countP_eq_one_of_nodup : ∀ {l : List String} {a : String},
    l.Nodup → a ∈ l → l.countP (fun s => decide (s = a)) = 1
  | [], a, _, ha => by simp at ha
  | b :: r, a, hn, ha => by
      rw [List.countP_cons]
      rcases List.mem_cons.1 ha with h | h
      · subst h
        have hnr : a ∉ r := (List.nodup_cons.1 hn).1
        have : r.countP (fun s => decide (s = a)) = 0 :=
          List.countP_eq_zero.mpr (fun x hx => by
            simp only [decide_eq_true_eq]
            intro hxa
            exact hnr (hxa ▸ hx))
        simp [this]
      · have hba : b ≠ a := by
          intro hb
          exact (List.nodup_cons.1 hn).1 (hb ▸ h)
        have := countP_eq_one_of_nodup (List.nodup_cons.1 hn).2 h
        simp [this, hba]

/-- Incoming edge count: direct children of the root have none, every other
node exactly one. -/
theorem buildGraph_incoming (j : JsonValue) :
    ∀ n ∈ (buildGraph j).nodes,
      (buildGraph j).edges.countP (fun e => decide (e.target = n.id)) =
        if n.id ∈ rootChildIds j then 0 else 1 := by
  intro n hn
  have hmem : n.id ∈ (buildGraph j).nodes.map (fun n => n.id) :=
    List.mem_map_of_mem _ hn
  have h1 : (buildGraph j).edges.countP (fun e => decide (e.target = n.id)) =
      ((buildGraph j).edges.map (fun e => e.target)).countP
        (fun s => decide (s = n.id)) := by
    rw [List.countP_map]
    rfl
  rw [h1, buildGraph_targets, List.countP_filter]
  by_cases hroot : n.id ∈ rootChildIds j
  · rw [if_pos hroot]
    apply List.countP_eq_zero.mpr
    intro a _
    by_cases ha : a = n.id <;> simp [ha, hroot]
  · rw [if_neg hroot]
    have hpt : ∀ a ∈ (buildGraph j).nodes.map (fun n => n.id),
        ((decide (a = n.id) && decide (¬ a ∈ rootChildIds j)) = true ↔
          (decide (a = n.id)) = true) := by
      intro a _
      by_cases ha : a = n.id <;> simp [ha, hroot]
    rw [List.countP_congr hpt]
    exact countP_eq_one_of_nodup (buildGraph_ids_nodup j) hmem

/-! ## Edge endpoints: parent and child nodes, parent path extension -/

theorem edgeWit_append_right {N M : List GNode} {e : GEdge}
    (h : edgeWit N e) : edgeWit (M ++ N) e := by
  obtain ⟨n1, h1, n2, h2, hs, ht, r, hr, hp⟩ := h
  exact ⟨n1, List.mem_append_right M h1, n2, List.mem_append_right M h2,
    hs, ht, r, hr, hp⟩

theorem edgeWit_append_left {N M : List GNode} {e : GEdge}
    (h : edgeWit N e) : edgeWit (N ++ M) e := by
  obtain ⟨n1, h1, n2, h2, hs, ht, r, hr, hp⟩ := h
  exact ⟨n1, List.mem_append_left M h1, n2, List.mem_append_left M h2,
    hs, ht, r, hr, hp⟩

theorem child_dot_data (p k : String) :
    ((if p = "$" then "$" else p) ++ "." ++ k).data =
      p.data ++ ('.' :: k.data) := by
  by_cases hp : p = "$" <;>
    simp [hp, String.data_append]

theorem child_idx_data (p : String) (i : Nat) :
    (p ++ "[" ++ natDec i ++ "]").data =
      p.data ++ ('[' :: ((natDec i).data ++ [']'])) := by
  simp [String.data_append]

mutual

theorem emitV_edgewit : ∀ (j : JsonValue) (p : String) (d : Nat) (x y : Int)
    (par : Option String) (c : Nat) (ppd : List Char), p ≠ "$" →
    (∃ s, s ≠ [] ∧ p.data = ppd ++ s) →
    ∀ e ∈ (emitV j p d x y par c).2,
      edgeWit (emitV j p d x y par c).1 e ∨
        (∃ pid, par = some pid ∧ e.source = pid ∧
          ∃ n2 ∈ (emitV j p d x y par c).1, e.target = n2.id ∧
            ∃ r, r ≠ [] ∧ n2.path.data = ppd ++ r)
  | .prim q, p, d, x, y, par, c, ppd, h, hext, e, he => by
      obtain ⟨s, hs0, hs⟩ := hext
      cases par with
      | none => simp [emitV, h] at he
      | some pid =>
          simp [emitV, h] at he
          subst he
          right
          refine ⟨pid, rfl, rfl, ?_⟩
          exact ⟨⟨"n_" ++ natDec c, mkLabel (.prim q) p, p, .prim q,
            typeOf (.prim q), x + (d : Int) * 220, y, false⟩,
            by simp [emitV, h], rfl, s, hs0, hs⟩
  | .obj fs, p, d, x, y, par, c, ppd, h, hext, e, he => by
      obtain ⟨s, hs0, hs⟩ := hext
      simp only [emitV, h, if_neg, if_false] at he ⊢
      rcases List.mem_append.1 he with h1 | h1
      · cases par with
        | none => simp at h1
        | some pid =>
            simp at h1
            subst h1
            right
            refine ⟨pid, rfl, rfl, ?_⟩
            refine ⟨⟨"n_" ++ natDec c, mkLabel (.obj fs) p, p, .obj fs,
              typeOf (.obj fs), x + (d : Int) * 220, y, false⟩,
              List.mem_append_left _ (by simp), rfl, s, hs0, hs⟩
      · have hf := emitF_edgewit fs p (d + 1) x y (some ("n_" ++ natDec c))
          (c + 1) e h1
        rcases hf with hf | ⟨pid, hpid, hsrc, n2, hn2, ht, r, hr0, hr⟩
        · left
          exact edgeWit_append_right hf
        · left
          have hpid2 : pid = "n_" ++ natDec c := by
            injection hpid with hpid
            exact hpid.symm
        -- promote: the source is the freshly emitted node for this value
          refine ⟨⟨"n_" ++ natDec c, mkLabel (.obj fs) p, p, .obj fs,
            typeOf (.obj fs), x + (d : Int) * 220, y, false⟩,
            List.mem_append_left _ (by simp), n2,
            List.mem_append_right _ hn2, by rw [hsrc, hpid2], ht,
            r, hr0, hr⟩
  | .arr es, p, d, x, y, par, c, ppd, h, hext, e, he => by
      obtain ⟨s, hs0, hs⟩ := hext
      simp only [emitV, h, if_neg, if_false] at he ⊢
      rcases List.mem_append.1 he with h1 | h1
      · cases par with
        | none => simp at h1
        | some pid =>
            simp at h1
            subst h1
            right
            refine ⟨pid, rfl, rfl, ?_⟩
            refine ⟨⟨"n_" ++ natDec c, mkLabel (.arr es) p, p, .arr es,
              typeOf (.arr es), x + (d : Int) * 220, y, false⟩,
              List.mem_append_left _ (by simp), rfl, s, hs0, hs⟩
      · have hf := emitE_edgewit es 0 p (d + 1) x y (some ("n_" ++ natDec c))
          (c + 1) e h1
        rcases hf with hf | ⟨pid, hpid, hsrc, n2, hn2, ht, r, hr0, hr⟩
        · left
          exact edgeWit_append_right hf
        · left
          have hpid2 : pid = "n_" ++ natDec c := by
            injection hpid with hpid
            exact hpid.symm
          refine ⟨⟨"n_" ++ natDec c, mkLabel (.arr es) p, p, .arr es,
            typeOf (.arr es), x + (d : Int) * 220, y, false⟩,
            List.mem_append_left _ (by simp), n2,
            List.mem_append_right _ hn2, by rw [hsrc, hpid2], ht,
            r, hr0, hr⟩
  termination_by j _ _ _ _ _ _ _ _ _ _ => sizeOf j

theorem emitF_edgewit : ∀ (fs : List (String × JsonValue)) (p : String)
    (cd : Nat) (x cy : Int) (cpar : Option String) (c : Nat),
    ∀ e ∈ (emitF fs p cd x cy cpar c).2,
      edgeWit (emitF fs p cd x cy cpar c).1 e ∨
        (∃ pid, cpar = some pid ∧ e.source = pid ∧
          ∃ n2 ∈ (emitF fs p cd x cy cpar c).1, e.target = n2.id ∧
            ∃ r, r ≠ [] ∧ n2.path.data = p.data ++ r)
  | [], p, cd, x, cy, cpar, c, e, he => by simp [emitF] at he
  | (k, v) :: rest, p, cd, x, cy, cpar, c, e, he => by
      simp only [emitF] at he ⊢
      rcases List.mem_append.1 he with h1 | h1
      · have hv := emitV_edgewit v ((if p = "$" then "$" else p) ++ "." ++ k)
          cd x cy cpar c p.data (path_dot_ne_root _ k)
          ⟨'.' :: k.data, by simp, child_dot_data p k⟩ e h1
        rcases hv with hv | ⟨pid, hpid, hsrc, n2, hn2, ht, r, hr0, hr⟩
        · left
          exact edgeWit_append_left hv
        · right
          exact ⟨pid, hpid, hsrc, n2, List.mem_append_left _ hn2, ht,
            r, hr0, hr⟩
      · have hrst := emitF_edgewit rest p cd x (cy + 120) cpar (c + sizeV v)
          e h1
        rcases hrst with hrst | ⟨pid, hpid, hsrc, n2, hn2, ht, r, hr0, hr⟩
        · left
          exact edgeWit_append_right hrst
        · right
          exact ⟨pid, hpid, hsrc, n2, List.mem_append_right _ hn2, ht,
            r, hr0, hr⟩
  termination_by fs _ _ _ _ _ _ _ _ => sizeOf fs

theorem emitE_edgewit : ∀ (es : List JsonValue) (i : Nat) (p : String)
    (cd : Nat) (x cy : Int) (cpar : Option String) (c : Nat),
    ∀ e ∈ (emitE es i p cd x cy cpar c).2,
      edgeWit (emitE es i p cd x cy cpar c).1 e ∨
        (∃ pid, cpar = some pid ∧ e.source = pid ∧
          ∃ n2 ∈ (emitE es i p cd x cy cpar c).1, e.target = n2.id ∧
            ∃ r, r ≠ [] ∧ n2.path.data = p.data ++ r)
  | [], i, p, cd, x, cy, cpar, c, e, he => by simp [emitE] at he
  | v :: rest, i, p, cd, x, cy, cpar, c, e, he => by
      simp only [emitE] at he ⊢
      rcases List.mem_append.1 he with h1 | h1
      · have hv := emitV_edgewit v (p ++ "[" ++ natDec i ++ "]")
          cd x cy cpar c p.data (path_idx_ne_root p i)
          ⟨'[' :: ((natDec i).data ++ [']']), by simp, child_idx_data p i⟩ e h1
        rcases hv with hv | ⟨pid, hpid, hsrc, n2, hn2, ht, r, hr0, hr⟩
        · left
          exact edgeWit_append_left hv
        · right
          exact ⟨pid, hpid, hsrc, n2, List.mem_append_left _ hn2, ht,
            r, hr0, hr⟩
      · have hrst := emitE_edgewit rest (i + 1) p cd x (cy + 120) cpar
          (c + sizeV v) e h1
        rcases hrst with hrst | ⟨pid, hpid, hsrc, n2, hn2, ht, r, hr0, hr⟩
        · left
          exact edgeWit_append_right hrst
        · right
          exact ⟨pid, hpid, hsrc, n2, List.mem_append_right _ hn2, ht,
            r, hr0, hr⟩
  termination_by es _ _ _ _ _ _ _ _ _ => sizeOf es

end

/-- Every edge of a generation joins two emitted nodes, and the target's
path strictly extends the source's path. -/
theorem buildGraph_edgewit (j : JsonValue) :
    ∀ e ∈ (buildGraph j).edges, edgeWit (buildGraph j).nodes e := by
  intro e he
  rw [buildGraph_eq] at he ⊢
  simp only at he ⊢
  cases j with
  | prim q => simp [emitV] at he
  | obj fs =>
      simp only [emitV, if_pos rfl, List.nil_append] at he ⊢
      have hf := emitF_edgewit fs "$" 0 0 0 none 2 e he
      rcases hf with hf | ⟨pid, hpid, _⟩
      · exact hf
      · exact absurd hpid (by simp)
  | arr es =>
      simp only [emitV, if_pos rfl, List.nil_append] at he ⊢
      have he2 := emitE_edgewit es 0 "$" 0 0 0 none 2 e he
      rcases he2 with he2 | ⟨pid, hpid, _⟩
      · exact he2
      · exact absurd hpid (by simp)

/-! ## Path uniqueness -/

theorem key_disamb : ∀ {k1 : List Char} {k2 r1 r2 : List Char}, k1 ≠ k2 →
    (∀ c ∈ k1, ¬(c = '.' ∨ c = '[')) → (∀ c ∈ k2, ¬(c = '.' ∨ c = '[')) →
    resOkL r1 → resOkL r2 → k1 ++ r1 ≠ k2 ++ r2
  | [], [], r1, r2, hne, _, _, _, _ => absurd rfl hne
  | [], c :: k2, r1, r2, _, _, g2, h1, _ => by
      intro h
      simp only [List.nil_append, List.cons_append] at h
      rcases h1 with h1 | ⟨t, h1⟩ | ⟨t, h1⟩
      · simp [h1] at h
      · rw [h1] at h
        have := (List.cons.inj h).1
        exact g2 c (by simp) (Or.inl this.symm)
      · rw [h1] at h
        have := (List.cons.inj h).1
        exact g2 c (by simp) (Or.inr this.symm)
  | c :: k1, [], r1, r2, _, g1, _, _, h2 => by
      intro h
      simp only [List.nil_append, List.cons_append] at h
      rcases h2 with h2 | ⟨t, h2⟩ | ⟨t, h2⟩
      · simp [h2] at h
      · rw [h2] at h
        have := (List.cons.inj h).1
        exact g1 c (by simp) (Or.inl this)
      · rw [h2] at h
        have := (List.cons.inj h).1
        exact g1 c (by simp) (Or.inr this)
  | a :: k1, b :: k2, r1, r2, hne, g1, g2, h1, h2 => by
      intro h
      simp only [List.cons_append] at h
      have hab := (List.cons.inj h).1
      have htl := (List.cons.inj h).2
      subst hab
      have hk : k1 ≠ k2 := by
        intro hk
        exact hne (by rw [hk])
      exact key_disamb hk (fun c hc => g1 c (by simp [hc]))
        (fun c hc => g2 c (by simp [hc])) h1 h2 htl

theorem idx_disamb : ∀ {d1 : List Char} {d2 r1 r2 : List Char}, d1 ≠ d2 →
    (∀ c ∈ d1, c ≠ ']') → (∀ c ∈ d2, c ≠ ']') →
    d1 ++ ']' :: r1 ≠ d2 ++ ']' :: r2
  | [], [], r1, r2, hne, _, _ => absurd rfl hne
  | [], c :: d2, r1, r2, _, _, g2 => by
      intro h
      simp only [List.nil_append, List.cons_append] at h
      exact g2 c (by simp) ((List.cons.inj h).1).symm
  | c :: d1, [], r1, r2, _, g1, _ => by
      intro h
      simp only [List.nil_append, List.cons_append] at h
      exact g1 c (by simp) (List.cons.inj h).1
  | a :: d1, b :: d2, r1, r2, hne, g1, g2 => by
      intro h
      simp only [List.cons_append] at h
      have hab := (List.cons.inj h).1
      have htl := (List.cons.inj h).2
      subst hab
      have hd : d1 ≠ d2 := by
        intro hd
        exact hne (by rw [hd])
      exact idx_disamb hd (fun c hc => g1 c (by simp [hc]))
        (fun c hc => g2 c (by simp [hc])) htl

theorem natDec_data_ne {i m : Nat} (h : i ≠ m) :
    (natDec i).data ≠ (natDec m).data := by
  intro he
  exact h (natDec_inj (String.ext he))

theorem natDec_no_bracket {m : Nat} : ∀ c ∈ (natDec m).data, c ≠ ']' := by
  intro c hc
  have := mem_natDec_digit hc
  intro h
  subst h
  simp [isDigitCh] at this

theorem goodF_keyOk : ∀ {fs : List (String × JsonValue)},
    goodF fs = true → ∀ k ∈ fs.map Prod.fst, keyOkB k = true
  | [], _, k, hk => by simp at hk
  | (k0, v) :: rest, hg, k, hk => by
      simp only [goodF, Bool.and_eq_true] at hg
      simp only [List.map_cons, List.mem_cons] at hk
      rcases hk with hk | hk
      · exact hk ▸ hg.1.1
      · exact goodF_keyOk hg.2 k hk

theorem keyOk_chars {k : String} (h : keyOkB k = true) :
    ∀ c ∈ k.data, ¬(c = '.' ∨ c = '[') := by
  intro c hc
  simp only [keyOkB, List.all_eq_true] at h
  have := h c hc
  simp only [Bool.not_eq_true', Bool.or_eq_false_iff] at this
  rintro (rfl | rfl)
  · simp at this
  · simp at this

theorem nodupKeysB_head {k : String} {ks : List String}
    (h : nodupKeysB (k :: ks) = true) : ¬ k ∈ ks ∧ nodupKeysB ks = true := by
  simp only [nodupKeysB, Bool.and_eq_true, Bool.not_eq_true'] at h
  refine ⟨?_, h.2⟩
  intro hmem
  have : ks.contains k = true := by
    simpa using hmem
  rw [this] at h
  simp at h

mutual

theorem emitV_paths : ∀ (j : JsonValue) (p : String) (d : Nat) (x y : Int)
    (par : Option String) (c : Nat), p ≠ "$" → goodV j = true →
    ((emitV j p d x y par c).1.map (fun n => n.path)).Nodup ∧
      ∀ q ∈ (emitV j p d x y par c).1.map (fun n => n.path),
        ∃ r, q.data = p.data ++ r ∧ resOkL r
  | .prim q, p, d, x, y, par, c, h, hg => by
      constructor
      · simp [emitV, h]
      · intro q hq
        simp [emitV, h] at hq
        exact ⟨[], by simp [hq], Or.inl rfl⟩
  | .obj fs, p, d, x, y, par, c, h, hg => by
      simp only [goodV, Bool.and_eq_true] at hg
      have hf := emitF_paths fs p (d + 1) x y (some ("n_" ++ natDec c))
        (c + 1) hg.2 hg.1
      simp only [emitV, h, if_neg, if_false, List.map_append,
        List.singleton_append]
      constructor
      · rw [List.map_cons, List.nodup_cons]
        refine ⟨?_, hf.1⟩
        intro hmem
        obtain ⟨k, r, _, hq, _⟩ := hf.2 p hmem
        have := congrArg List.length hq
        simp at this
      · intro q hq
        rcases List.mem_cons.1 hq with hq | hq
        · exact ⟨[], by simp [hq], Or.inl rfl⟩
        · obtain ⟨k, r, _, hqd, hr⟩ := hf.2 q hq
          exact ⟨'.' :: (k.data ++ r), hqd, Or.inr (Or.inl ⟨_, rfl⟩)⟩
  | .arr es, p, d, x, y, par, c, h, hg => by
      simp only [goodV] at hg
      have he := emitE_paths es 0 p (d + 1) x y (some ("n_" ++ natDec c))
        (c + 1) hg
      simp only [emitV, h, if_neg, if_false, List.map_append,
        List.singleton_append]
      constructor
      · rw [List.map_cons, List.nodup_cons]
        refine ⟨?_, he.1⟩
        intro hmem
        obtain ⟨m, r, _, _, hq, _⟩ := he.2 p hmem
        have := congrArg List.length hq
        simp at this
      · intro q hq
        rcases List.mem_cons.1 hq with hq | hq
        · exact ⟨[], by simp [hq], Or.inl rfl⟩
        · obtain ⟨m, r, _, _, hqd, hr⟩ := he.2 q hq
          exact ⟨'[' :: ((natDec m).data ++ ']' :: r), hqd,
            Or.inr (Or.inr ⟨_, rfl⟩)⟩
  termination_by j _ _ _ _ _ _ _ _ => sizeOf j

theorem emitF_paths : ∀ (fs : List (String × JsonValue)) (p : String)
    (cd : Nat) (x cy : Int) (cpar : Option String) (c : Nat),
    goodF fs = true → nodupKeysB (fs.map Prod.fst) = true →
    ((emitF fs p cd x cy cpar c).1.map (fun n => n.path)).Nodup ∧
      ∀ q ∈ (emitF fs p cd x cy cpar c).1.map (fun n => n.path),
        ∃ k r, k ∈ fs.map Prod.fst ∧
          q.data = p.data ++ '.' :: (k.data ++ r) ∧ resOkL r
  | [], p, cd, x, cy, cpar, c, _, _ => by
      constructor
      · simp [emitF]
      · intro q hq
        simp [emitF] at hq
  | (k, v) :: rest, p, cd, x, cy, cpar, c, hg, hnk => by
      simp only [goodF, Bool.and_eq_true] at hg
      have hnk2 := nodupKeysB_head (by simpa using hnk)
      have hv := emitV_paths v ((if p = "$" then "$" else p) ++ "." ++ k)
        cd x cy cpar c (path_dot_ne_root _ k) hg.1.2
      have hrst := emitF_paths rest p cd x (cy + 120) cpar (c + sizeV v)
        hg.2 hnk2.2
      have hAchar : ∀ q ∈ (emitV v ((if p = "$" then "$" else p) ++ "." ++ k)
          cd x cy cpar c).1.map (fun n => n.path),
          ∃ r, q.data = p.data ++ '.' :: (k.data ++ r) ∧ resOkL r := by
        intro q hq
        obtain ⟨r, hqd, hr⟩ := hv.2 q hq
        refine ⟨r, ?_, hr⟩
        rw [hqd, child_dot_data]
        simp
      simp only [emitF, List.map_append]
      constructor
      · apply List.Nodup.append hv.1 hrst.1
        intro q hqA hqB
        obtain ⟨r1, hq1, hr1⟩ := hAchar q hqA
        obtain ⟨k2, r2, hk2, hq2, hr2⟩ := hrst.2 q hqB
        rw [hq1] at hq2
        have := List.append_cancel_left hq2
        have heq := (List.cons.inj this).2
        have hkne : k.data ≠ k2.data := by
          intro hkd
          exact hnk2.1 (by rw [← String.ext hkd] at hk2; exact hk2)
        exact key_disamb hkne (keyOk_chars hg.1.1)
          (keyOk_chars (goodF_keyOk hg.2 k2 hk2)) hr1 hr2 heq
      · intro q hq
        rcases List.mem_append.1 hq with hq | hq
        · obtain ⟨r, hqd, hr⟩ := hAchar q hq
          exact ⟨k, r, by simp, hqd, hr⟩
        · obtain ⟨k2, r2, hk2, hq2, hr2⟩ := hrst.2 q hq
          exact ⟨k2, r2, by simp [hk2], hq2, hr2⟩
  termination_by fs _ _ _ _ _ _ _ _ => sizeOf fs

theorem emitE_paths : ∀ (es : List JsonValue) (i : Nat) (p : String)
    (cd : Nat) (x cy : Int) (cpar : Option String) (c : Nat),
    goodL es = true →
    ((emitE es i p cd x cy cpar c).1.map (fun n => n.path)).Nodup ∧
      ∀ q ∈ (emitE es i p cd x cy cpar c).1.map (fun n => n.path),
        ∃ m r, i ≤ m ∧ m < i + es.length ∧
          q.data = p.data ++ '[' :: ((natDec m).data ++ ']' :: r) ∧ resOkL r
  | [], i, p, cd, x, cy, cpar, c, _ => by
      constructor
      · simp [emitE]
      · intro q hq
        simp [emitE] at hq
  | v :: rest, i, p, cd, x, cy, cpar, c, hg => by
      simp only [goodL, Bool.and_eq_true] at hg
      have hv := emitV_paths v (p ++ "[" ++ natDec i ++ "]")
        cd x cy cpar c (path_idx_ne_root p i) hg.1
      have hrst := emitE_paths rest (i + 1) p cd x (cy + 120) cpar
        (c + sizeV v) hg.2
      have hAchar : ∀ q ∈ (emitV v (p ++ "[" ++ natDec i ++ "]")
          cd x cy cpar c).1.map (fun n => n.path),
          ∃ r, q.data = p.data ++ '[' :: ((natDec i).data ++ ']' :: r) ∧
            resOkL r := by
        intro q hq
        obtain ⟨r, hqd, hr⟩ := hv.2 q hq
        refine ⟨r, ?_, hr⟩
        rw [hqd, child_idx_data]
        simp
      simp only [emitE, List.map_append]
      constructor
      · apply List.Nodup.append hv.1 hrst.1
        intro q hqA hqB
        obtain ⟨r1, hq1, hr1⟩ := hAchar q hqA
        obtain ⟨m2, r2, hm2, _, hq2, hr2⟩ := hrst.2 q hqB
        rw [hq1] at hq2
        have := List.append_cancel_left hq2
        have heq := (List.cons.inj this).2
        have hine : (natDec i).data ≠ (natDec m2).data :=
          natDec_data_ne (by omega)
        exact idx_disamb hine natDec_no_bracket natDec_no_bracket heq
      · intro q hq
        rcases List.mem_append.1 hq with hq | hq
        · obtain ⟨r, hqd, hr⟩ := hAchar q hq
          exact ⟨i, r, le_refl i, by simp, hqd, hr⟩
        · obtain ⟨m2, r2, hm2a, hm2b, hq2, hr2⟩ := hrst.2 q hq
          exact ⟨m2, r2, by omega, by simp; omega, hq2, hr2⟩
  termination_by es _ _ _ _ _ _ _ _ => sizeOf es

end

/-- Paths are unique within a generation when all object keys are
duplicate-free and layout-safe. -/
theorem buildGraph_paths_nodup (j : JsonValue) (hg : goodV j = true) :
    ((buildGraph j).nodes.map (fun n => n.path)).Nodup := by
  rw [buildGraph_eq]
  cases j with
  | prim q => simp [emitV]
  | obj fs =>
      simp only [goodV, Bool.and_eq_true] at hg
      have hf := emitF_paths fs "$" 0 0 0 none 2 hg.2 hg.1
      simpa [emitV] using hf.1
  | arr es =>
      simp only [goodV] at hg
      have he := emitE_paths es 0 "$" 0 0 0 none 2 hg
      simpa [emitV] using he.1


theorem find?_first {α : Type} (p : α → Bool) :
    ∀ (l : List α) (a : α), l.find? p = some a →
      ∃ l1 l2, l = l1 ++ a :: l2 ∧ p a = true ∧ ∀ x ∈ l1, p x = false
  | [], a, h => by simp [List.find?] at h
  | b :: r, a, h => by
      by_cases hb : p b
      · rw [List.find?_cons_of_pos _ hb] at h
        injection h with h
        subst h
        exact ⟨[], r, rfl, hb, by simp⟩
      · rw [List.find?_cons_of_neg _ hb] at h
        obtain ⟨l1, l2, hl, hp, hall⟩ := find?_first p r a h
        refine ⟨b :: l1, l2, by rw [hl]; simp, hp, ?_⟩
        intro x hx
        rcases List.mem_cons.1 hx with hx | hx
        · subst hx
          simpa using hb
        · exact hall x hx

/-! ## Claims -/

/-- C2 counterexample: repairing `["name": "item1", "name": "item2"]` does
NOT merge the pairs into a single object with last-wins; it produces an
array of TWO one-pair objects, so the repaired value is not
`[{"name": "item2"}]`. -/
theorem claim_C2_counterexample :
    trySanitizeText "[\"name\": \"item1\", \"name\": \"item2\"]" =
      "[\x7b\"name\":\"item1\"\x7d,\x7b\"name\":\"item2\"\x7d]" ∧
    jsonParse "[\x7b\"name\":\"item1\"\x7d,\x7b\"name\":\"item2\"\x7d]" =
      .ok (.arr [.obj [("name", .prim (.str "item1"))],
                 .obj [("name", .prim (.str "item2"))]]) ∧
    JsonValue.arr [.obj [("name", .prim (.str "item1"))],
                   .obj [("name", .prim (.str "item2"))]] ≠
      JsonValue.arr [.obj [("name", .prim (.str "item2"))]] := by
  refine ⟨by decide, by decide, by decide⟩

/-- C2 (amended): for the qualifying span `["name": "item1", "name":
"item2"]` the repair wraps EACH `key: value` pair in its own object
literal, yielding the two-element array
`[{"name":"item1"},{"name":"item2"}]` (duplicate keys are preserved as
separate objects, no last-wins collapse), and the strict re-parse of the
repaired text succeeds. -/
theorem claim_C2_repair :
    trySanitizeText "[\"name\": \"item1\", \"name\": \"item2\"]" =
      "[\x7b\"name\":\"item1\"\x7d,\x7b\"name\":\"item2\"\x7d]" ∧
    jsonParse
        (trySanitizeText "[\"name\": \"item1\", \"name\": \"item2\"]") =
      .ok (.arr [.obj [("name", .prim (.str "item1"))],
                 .obj [("name", .prim (.str "item2"))]]) := by
  refine ⟨by decide, by decide⟩

/-- C3: whenever the strict parse fails with error `e` and the repair is
either a no-op or yields text that itself fails to parse, the recovery
parser reports the ORIGINAL error `e`; the repair error is never
surfaced. -/
theorem claim_C3_original_error (p : String → Except String JsonValue)
    (t e : String) (h1 : p t = .error e)
    (h2 : trySanitizeText t = t ∨
      ∃ e2, p (trySanitizeText t) = .error e2) :
    parseWithRecoveryWith p t = .error e := by
  unfold parseWithRecoveryWith
  rw [h1]
  rcases h2 with h2 | ⟨e2, h2⟩
  · simp [h2]
  · by_cases hc : trySanitizeText t = t
    · simp [hc]
    · simp [hc, h2]

/-- Witness for C3 at the concrete malformed input `"["`, where the
sanitizer is a no-op and the original strict error is surfaced. -/
theorem claim_C3_witness :
    jsonParse "[" = .error "Unexpected end of JSON input" ∧
    trySanitizeText "[" = "[" ∧
    parseWithRecovery "[" = .error "Unexpected end of JSON input" :=
  ⟨by decide, by decide,
    claim_C3_original_error jsonParse "[" "Unexpected end of JSON input"
      (by decide) (Or.inl (by decide))⟩

/-- C7 counterexample: a whitespace-only query does NOT normalize to null;
it normalizes to `some ""`. -/
theorem claim_C7_counterexample :
    parsePathToNormalized " " = some "" ∧
      some "" ≠ (none : Option String) := by
  refine ⟨by decide, by decide⟩

/-- C7 (amended): normalization strips at most one leading `$` and then at
most one leading `.` from the trimmed query; the EMPTY query normalizes to
null while a whitespace-only query normalizes to the empty string; in both
cases (null or empty normalized form) no search is performed and nothing
is mutated. -/
theorem claim_C7_normalize :
    parsePathToNormalized "" = none ∧
    (∀ q : String, q ≠ "" →
      parsePathToNormalized q =
        some (stripLeadDot (stripLeadDollar (jsTrim q)))) ∧
    parsePathToNormalized "$$x" = some "$x" ∧
    parsePathToNormalized "..x" = some ".x" ∧
    parsePathToNormalized " $.x " = some "x" ∧
    (∀ q : String, jsTrim q = "" →
      ∀ nodes : List GNode, handleSearch nodes q = ⟨nodes, none, none⟩) := by
  refine ⟨by decide, ?_, by decide, by decide, by decide, ?_⟩
  · intro q hq
    simp only [parsePathToNormalized, hq, if_neg, if_false]
    rcases hmk : jsTrim q with ⟨d⟩
    cases d with
    | nil => simp [stripLeadDollar, stripLeadDot]
    | cons c r =>
        by_cases hc : c = '$'
        · subst hc
          simp only [stripLeadDollar]
          cases r with
          | nil => simp [stripLeadDot]
          | cons c2 r2 =>
              by_cases hc2 : c2 = '.'
              · subst hc2
                simp [stripLeadDot]
              · simp [stripLeadDot, hc2]
        · simp only [stripLeadDollar, hc]
          by_cases hcdot : c = '.'
          · subst hcdot
            simp [stripLeadDot]
          · simp [stripLeadDot, hc, hcdot]
  · intro q hq nodes
    by_cases h0 : q = ""
    · simp [handleSearch, h0]
    · have : parsePathToNormalized q = some "" := by
        simp only [parsePathToNormalized, h0, if_neg, if_false]
        have : (jsTrim q).data = [] := by
          rw [hq]
        simp [this]
      simp [handleSearch, h0, this]

/-- Witness for C7 at a whitespace-only query against a one-node list. -/
theorem claim_C7_witness :
    jsTrim "  " = "" ∧
    handleSearch [] "  " = ⟨[], none, none⟩ :=
  ⟨by decide, claim_C7_normalize.2.2.2.2.2 "  " (by decide) []⟩

/-- C8 counterexample: a strictly valid JSON text that sanitization
rewrites: the array-ish pattern occurs inside and across string literals
of `{"a [ ": 1, " : 2 ] x": 3}`, and the replacement changes the text. -/
theorem claim_C8_counterexample :
    jsonParse "\x7b\"a [ \": 1, \" : 2 ] x\": 3\x7d" =
      .ok (.obj [("a [ ", .prim (.num "1")), (" : 2 ] x", .prim (.num "3"))]) ∧
    trySanitizeText "\x7b\"a [ \": 1, \" : 2 ] x\": 3\x7d" =
      "\x7b\"a [\x7b\": 1, \":2\x7d] x\": 3\x7d" ∧
    "\x7b\"a [\x7b\": 1, \":2\x7d] x\": 3\x7d" ≠ "\x7b\"a [ \": 1, \" : 2 ] x\": 3\x7d" := by
  refine ⟨by decide, by decide, by decide⟩

/-- C8 (amended): sanitization is the identity on every text in which the
trigger pattern `[ <ws> "<string>" <ws> :` does not occur (in particular on
strictly valid JSON texts avoiding that pattern); it is not the identity
on ALL strictly valid JSON texts. -/
theorem claim_C8_sanitize_id (t : String)
    (h : precheckMatches t.data = false) : trySanitizeText t = t := by
  simp [trySanitizeText, h]

/-- Witness for C8 on a plain valid JSON object without the trigger. -/
theorem claim_C8_witness :
    precheckMatches ("\x7b\"a\": 1\x7d").data = false ∧
    trySanitizeText "\x7b\"a\": 1\x7d" = "\x7b\"a\": 1\x7d" :=
  ⟨by decide, claim_C8_sanitize_id "\x7b\"a\": 1\x7d" (by decide)⟩

/-- C4: for a non-empty normalized query, the search selects the FIRST node
in stored order satisfying the suffix-or-exact-path predicate; with no
match it reports an explicit not-found message, leaves the node list
untouched, and in every case changes nothing but the highlight flag.  In
particular `"user.address.city"` on the graph of
`{"user":{"address":{"city":"X"}}}` matches the node with path
`$.user.address.city`. -/
theorem claim_C4_search (nodes : List GNode) (q s : String)
    (hq : q ≠ "") (hs : parsePathToNormalized q = some s) (hne : s ≠ "") :
    ((∀ m, (handleSearch nodes q).matched = some m →
      ∃ l1 l2, nodes = l1 ++ m :: l2 ∧ matchesQuery s m = true ∧
        ∀ x ∈ l1, matchesQuery s x = false) ∧
    ((handleSearch nodes q).matched = none →
      (∀ n ∈ nodes, matchesQuery s n = false) ∧
      (handleSearch nodes q).nodes = nodes ∧
      (handleSearch nodes q).message = some "No match found") ∧
    (handleSearch nodes q).nodes.map (fun n => { n with highlighted := false }) =
      nodes.map (fun n => { n with highlighted := false })) ∧
    ((handleSearch
        (buildGraph (.obj [("user", .obj [("address",
          .obj [("city", .prim (.str "X"))])])])).nodes
        "user.address.city").matched).map (fun n => n.path) =
      some "$.user.address.city" := by
  refine ⟨?_, by decide⟩
  have hunfold : handleSearch nodes q =
      (match nodes.find? (matchesQuery s) with
       | some m =>
           ⟨nodes.map (fun n => { n with highlighted := n.id = m.id }),
            some "Match found", some m⟩
       | none => ⟨nodes, some "No match found", none⟩) := by
    simp [handleSearch, hq, hs, hne]
  cases hfind : nodes.find? (matchesQuery s) with
  | some m =>
      rw [hunfold, hfind]
      refine ⟨?_, ?_, ?_⟩
      · intro m2 hm2
        simp only [Option.some.injEq] at hm2
        subst hm2
        exact find?_first _ nodes _ hfind
      · intro hnone
        simp at hnone
      · rw [List.map_map]
        rfl
  | none =>
      rw [hunfold, hfind]
      refine ⟨?_, ?_, rfl⟩
      · intro m hm
        simp at hm
      · intro _
        refine ⟨?_, rfl, rfl⟩
        intro n hn
        have := List.find?_eq_none.mp hfind n hn
        simpa using this

/-- Witness for C4 at the concrete example graph and query. -/
theorem claim_C4_witness :
    ∃ l1 l2,
      (buildGraph (.obj [("user", .obj [("address",
        .obj [("city", .prim (.str "X"))])])])).nodes =
        l1 ++ ⟨"n_4", "city: X", "$.user.address.city", .prim (.str "X"),
          "primitive", 440, 0, false⟩ :: l2 ∧
      matchesQuery "user.address.city"
        ⟨"n_4", "city: X", "$.user.address.city", .prim (.str "X"),
          "primitive", 440, 0, false⟩ = true ∧
      ∀ x ∈ l1, matchesQuery "user.address.city" x = false :=
  ((claim_C4_search
      (buildGraph (.obj [("user", .obj [("address",
        .obj [("city", .prim (.str "X"))])])])).nodes
      "user.address.city" "user.address.city"
      (by decide) (by decide) (by decide)).1.1
    ⟨"n_4", "city: X", "$.user.address.city", .prim (.str "X"),
      "primitive", 440, 0, false⟩ (by decide))

/-- C1 counterexample: for `{"a": 1}` the parsed tree has 2 values but the
graph has only 1 node (the root is not emitted) and 0 edges (not
`nodeCount - 1 = 1`). -/
theorem claim_C1_counterexample :
    sizeV (JsonValue.obj [("a", .prim (.num "1"))]) = 2 ∧
    (buildGraph (JsonValue.obj [("a", .prim (.num "1"))])).nodes.length = 1 ∧
    (buildGraph (JsonValue.obj [("a", .prim (.num "1"))])).edges.length = 0 ∧
    (1 : Nat) ≠ 2 ∧ (0 : Nat) ≠ 2 - 1 := by
  refine ⟨by decide, by decide, by decide, by decide, by decide⟩

/-- C1 (amended): `buildGraph` yields one node per NON-root value (the root
is never emitted) and `nodeCount - rootChildCount` edges; every edge joins
two emitted nodes; each direct child of the root has no incoming edge and
every other node exactly one, so the result is a forest with one component
per direct child of the root. -/
theorem claim_C1_graph_shape (j : JsonValue) :
    (buildGraph j).nodes.length = sizeV j - 1 ∧
    (buildGraph j).edges.length = (sizeV j - 1) - childCount j ∧
    (∀ e ∈ (buildGraph j).edges, ∃ n1 ∈ (buildGraph j).nodes,
      ∃ n2 ∈ (buildGraph j).nodes, e.source = n1.id ∧ e.target = n2.id) ∧
    (∀ n ∈ (buildGraph j).nodes,
      (buildGraph j).edges.countP (fun e => decide (e.target = n.id)) =
        if n.id ∈ rootChildIds j then 0 else 1) := by
  refine ⟨(buildGraph_counts j).1, (buildGraph_counts j).2, ?_,
    buildGraph_incoming j⟩
  intro e he
  obtain ⟨n1, h1, n2, h2, hs, ht, _⟩ := buildGraph_edgewit j e he
  exact ⟨n1, h1, n2, h2, hs, ht⟩

/-- Witness for C1 on `{"a": {"b": 1}}`: the nested node `n_3` is not a
root child and has exactly one incoming edge. -/
theorem claim_C1_witness :
    (⟨"n_3", "b: 1", "$.a.b", .prim (.num "1"), "primitive", 220, 0, false⟩ :
        GNode) ∈
      (buildGraph (JsonValue.obj [("a", .obj [("b", .prim (.num "1"))])])).nodes ∧
    (buildGraph (JsonValue.obj [("a", .obj [("b", .prim (.num "1"))])])).edges.countP
        (fun e => decide (e.target = "n_3")) =
      if "n_3" ∈ rootChildIds (JsonValue.obj [("a", .obj [("b", .prim (.num "1"))])])
      then 0 else 1 :=
  ⟨by decide,
    (claim_C1_graph_shape (JsonValue.obj [("a", .obj [("b", .prim (.num "1"))])])).2.2.2
      ⟨"n_3", "b: 1", "$.a.b", .prim (.num "1"), "primitive", 220, 0, false⟩
      (by decide)⟩

/-- C5 counterexample: in the graph of `{"a": {"b": 1}}` the node `$.a`
sits one level below the root, so the claim predicts `x = 1 * 220`, but
its actual `x` is 0 (the code does not increment `depth` for the root's
children). -/
theorem claim_C5_counterexample :
    (buildGraph (JsonValue.obj [("a", .obj [("b", .prim (.num "1"))])])).nodes.map
        (fun n => (n.path, n.x)) = [("$.a", 0), ("$.a.b", 220)] ∧
    (0 : Int) ≠ 1 * 220 := by
  refine ⟨by decide, by decide⟩

/-- C5 (amended): each emitted node at `lvl ≥ 1` levels below the root sits
at `x = (lvl - 1) * 220` (the root has level 0 and is not emitted, so its
children sit at `x = 0`); for each parent the children's `y` start at the
parent's own `y` and grow by 120 per sibling in traversal order, with the
root's `y` equal to 0 — exactly the layout computed by `layoutV`. -/
theorem claim_C5_layout (j : JsonValue) :
    (buildGraph j).nodes.map (fun n => (n.path, n.x, n.y)) =
      layoutV j "$" 0 0 :=
  buildGraph_layout j

/-- C6 counterexample: for input `[1, 2]` the element labels are
`"$[0]: 1"` and `"$[1]: 2"`, not `"0: 1"` and `"1: 2"`: splitting the path
on `'.'` leaves the whole `$[i]` as the last chunk. -/
theorem claim_C6_counterexample :
    (buildGraph (JsonValue.arr [.prim (.num "1"), .prim (.num "2")])).nodes.map
        (fun n => n.label) = ["$[0]: 1", "$[1]: 2"] ∧
    ["$[0]: 1", "$[1]: 2"] ≠ ["0: 1", "1: 2"] := by
  refine ⟨by decide, by decide⟩

/-- C6 (amended): every emitted node's label is the last DOT-separated
chunk of its path (array-index brackets stay attached to the chunk), and
for primitives that chunk followed by `": "` and the textual value; for
input `[1, 2]` this gives labels `"$[0]: 1"` and `"$[1]: 2"`. -/
theorem claim_C6_labels (j : JsonValue) :
    (∀ n ∈ (buildGraph j).nodes,
      n.label = if typeOf n.value = "primitive" then
          lastDotSeg n.path ++ ": " ++ jsString n.value
        else lastDotSeg n.path) ∧
    (buildGraph (JsonValue.arr [.prim (.num "1"), .prim (.num "2")])).nodes.map
        (fun n => n.label) = ["$[0]: 1", "$[1]: 2"] := by
  refine ⟨?_, by decide⟩
  intro n hn
  have := (buildGraph_fields j n hn).1
  rw [this]
  rfl

/-- Witness for C6 at the `$[0]` node of `[1, 2]`. -/
theorem claim_C6_witness :
    (⟨"n_2", "$[0]: 1", "$[0]", .prim (.num "1"), "primitive", 0, 0,
        false⟩ : GNode) ∈
      (buildGraph (JsonValue.arr [.prim (.num "1"), .prim (.num "2")])).nodes ∧
    ("$[0]: 1" : String) =
      if typeOf (JsonValue.prim (.num "1")) = "primitive" then
        lastDotSeg "$[0]" ++ ": " ++ jsString (.prim (.num "1"))
      else lastDotSeg "$[0]" :=
  ⟨by decide,
    (claim_C6_labels (JsonValue.arr [.prim (.num "1"), .prim (.num "2")])).1
      ⟨"n_2", "$[0]: 1", "$[0]", .prim (.num "1"), "primitive", 0, 0, false⟩
      (by decide)⟩

/-- C9 counterexample: with keys containing dots, paths collide: the value
`{"a.b": 1, "a": {"b": 2}}` (a legal parse result with distinct keys)
yields the path `$.a.b` twice. -/
theorem claim_C9_counterexample :
    (buildGraph (JsonValue.obj [("a.b", .prim (.num "1")),
        ("a", .obj [("b", .prim (.num "2"))])])).nodes.map (fun n => n.path) =
      ["$.a.b", "$.a", "$.a.b"] ∧
    ¬ ((buildGraph (JsonValue.obj [("a.b", .prim (.num "1")),
        ("a", .obj [("b", .prim (.num "2"))])])).nodes.map
          (fun n => n.path)).Nodup := by
  refine ⟨by decide, by decide⟩

/-- C9 (amended): every edge's target node path strictly extends its
source node path (child paths begin with the parent's full path), and
paths are unique within a generation PROVIDED every object key is
duplicate-free and contains neither `'.'` nor `'['` (with dotted keys,
distinct values can produce colliding paths). -/
theorem claim_C9_paths (j : JsonValue) :
    (∀ e ∈ (buildGraph j).edges, ∃ n1 ∈ (buildGraph j).nodes,
      ∃ n2 ∈ (buildGraph j).nodes, e.source = n1.id ∧ e.target = n2.id ∧
        ∃ r, r ≠ [] ∧ n2.path.data = n1.path.data ++ r) ∧
    (goodV j = true →
      ((buildGraph j).nodes.map (fun n => n.path)).Nodup) :=
  ⟨fun e he => buildGraph_edgewit j e he, buildGraph_paths_nodup j⟩

/-- Witness for C9 on the example graph with layout-safe keys. -/
theorem claim_C9_witness :
    goodV (JsonValue.obj [("user", .obj [("address",
        .obj [("city", .prim (.str "X"))])])]) = true ∧
    ((buildGraph (JsonValue.obj [("user", .obj [("address",
        .obj [("city", .prim (.str "X"))])])])).nodes.map
      (fun n => n.path)).Nodup :=
  ⟨by decide,
    (claim_C9_paths (JsonValue.obj [("user", .obj [("address",
        .obj [("city", .prim (.str "X"))])])])).2 (by decide)⟩

/-- C10: the root consumes counter value 1 before the emission check, so
the emitted nodes carry ids `n_2, n_3, ...` consecutively in preorder; no
emitted node has id `n_1`, and the first emitted node (when one exists)
has id `n_2`. -/
theorem claim_C10_ids (j : JsonValue) :
    (buildGraph j).nodes.map (fun n => n.id) =
      (List.range' 2 (sizeV j - 1)).map (fun k => "n_" ++ natDec k) ∧
    ¬ "n_1" ∈ (buildGraph j).nodes.map (fun n => n.id) ∧
    (∀ n0 rest, (buildGraph j).nodes = n0 :: rest → n0.id = "n_2") := by
  have hids := buildGraph_ids j
  refine ⟨hids, ?_, ?_⟩
  · rw [hids]
    intro hmem
    simp only [List.mem_map] at hmem
    obtain ⟨m, hm, he⟩ := hmem
    rw [List.mem_range'_1] at hm
    have h1 : ("n_1" : String) = "n_" ++ natDec 1 := by decide
    rw [h1] at he
    have := mkId_inj he
    omega
  · intro n0 rest hcons
    have hmap := congrArg (List.map (fun n => n.id)) hcons
    rw [hids] at hmap
    cases hsz : sizeV j - 1 with
    | zero =>
        rw [hsz] at hmap
        simp [List.range'] at hmap
    | succ m =>
        rw [hsz, List.range'_succ] at hmap
        simp only [List.map_cons] at hmap
        have h2 : ("n_" ++ natDec 2 : String) = "n_2" := by decide
        have := (List.cons.inj hmap).1
        rw [h2] at this
        exact this.symm

/-- Witness for C10 on `{"a": 1}`: the single emitted node carries id
`n_2`. -/
theorem claim_C10_witness :
    (buildGraph (JsonValue.obj [("a", .prim (.num "1"))])).nodes =
      [⟨"n_2", "a: 1", "$.a", .prim (.num "1"), "primitive", 0, 0, false⟩] ∧
    (⟨"n_2", "a: 1", "$.a", .prim (.num "1"), "primitive", 0, 0, false⟩ :
        GNode).id = "n_2" :=
  ⟨by decide,
    (claim_C10_ids (JsonValue.obj [("a", .prim (.num "1"))])).2.2
      ⟨"n_2", "a: 1", "$.a", .prim (.num "1"), "primitive", 0, 0, false⟩ []
      (by decide)⟩
